import Mathlib

/-!
Verification of the Gobstones bytecode compiler (`Compiler` class): a
shallow embedding of the compiler into Lean, followed by theorems about
the emitted code.

The compiler consumes a linted AST and emits a linear instruction stream
for a stack-based virtual machine.  External collaborators (symbol table,
runtime-primitives catalog, i18n message catalog) are modelled as an
explicit read-only environment, matching the dependency-injection design
of the source.
-/

/-! ## Preliminaries: decimal rendering of natural numbers

JavaScript's `Number.prototype.toString()` renders a natural number in
decimal.  `natDec` models it; it is used by the fresh-name generator
(`'_l' + n.toString()`, `'_v' + n.toString()`). -/

/-- Decimal digit character for a digit `d < 10` (any larger value is
clamped to `'9'`; the function is only used with `d % 10`). -/
def decChar (d : Nat) : Char :=
  match d with
  | 0 => '0' | 1 => '1' | 2 => '2' | 3 => '3' | 4 => '4'
  | 5 => '5' | 6 => '6' | 7 => '7' | 8 => '8' | _ => '9'

/-- Digit list (most significant first) of `n`, with structural fuel. -/
def natDecAux : Nat → Nat → List Char
  | 0, _ => []
  | fuel+1, n => if n = 0 then [] else natDecAux fuel (n / 10) ++ [decChar (n % 10)]

/-- Decimal string of a natural number, as JavaScript's `toString()`. -/
def natDec (n : Nat) : String := if n = 0 then "0" else ⟨natDecAux n n⟩

/-! ## Source positions and instructions

Every AST node and every emitted instruction carries a `startPos` and an
`endPos`.  The compiler never inspects positions, so they are modelled as
an opaque token type (`Nat`). -/

abbrev SrcPos := Nat

/-- Runtime type expressions (`value.js`): trees over
`Any`, `Integer`, `String`, `Tuple`, `List`, `Structure`.  The `cases` of
a `TypeStructure` map constructor names to field-name/type maps; the
compiler only ever builds structure types with empty `cases`. -/
inductive Ty where
  | TypeAny
  | TypeInteger
  | TypeString
  | TypeTuple (componentTypes : List Ty)
  | TypeList (contentType : Ty)
  | TypeStructure (typeName : String) (cases : List (String × List (String × Ty)))

/-- Instruction variants (`instruction.js`), named after the source
classes.  Labels are plain strings. -/
inductive Op where
  | IPushInteger (n : Int)
  | IPushString (s : String)
  | IPushVariable (variableName : String)
  | ISetVariable (variableName : String)
  | IUnsetVariable (variableName : String)
  | ILabel (label : String)
  | IJump (targetLabel : String)
  | IJumpIfFalse (targetLabel : String)
  | IJumpIfStructure (constructorName : String) (targetLabel : String)
  | IJumpIfTuple (size : Nat) (targetLabel : String)
  | ICall (targetLabel : String) (nargs : Nat)
  | IReturn
  | IMakeTuple (size : Nat)
  | IMakeList (size : Nat)
  | IMakeStructure (typeName : String) (constructorName : String) (fieldNames : List String)
  | IUpdateStructure (typeName : String) (constructorName : String) (fieldNames : List String)
  | IReadTupleComponent (index : Nat)
  | IReadStructureField (fieldName : String)
  | IAdd
  | IDup
  | IPop
  | IPrimitiveCall (primitiveName : String) (nargs : Nat)
  | ISaveState
  | IRestoreState
  | ITypeCheck (type : Ty)

/-- An emitted instruction: an opcode annotated with source positions
(set by `_produce`). -/
structure Instr where
  startPos : SrcPos
  endPos : SrcPos
  op : Op

/-! ## AST

Modelled from the spec: the AST node definitions live in `ast.js`, which
is outside the covered source; the spec's data-model table (§3) lists the
variants and the fields the compiler reads (`value` holding the textual
identifier for parameters and variable-like nodes, `startPos`/`endPos` on
every node).  Constructors are named after the source tags. -/

inductive Expression where
  | N_ExprVariable (startPos endPos : SrcPos) (variableName : String)
  | N_ExprConstantNumber (startPos endPos : SrcPos) (number : Int)
  | N_ExprConstantString (startPos endPos : SrcPos) (stringValue : String)
  | N_ExprList (startPos endPos : SrcPos) (elements : List Expression)
  | N_ExprRange (startPos endPos : SrcPos)
  | N_ExprTuple (startPos endPos : SrcPos) (elements : List Expression)
  | N_ExprStructure (startPos endPos : SrcPos) (constructorName : String)
      (fieldBindings : List (String × Expression))
  | N_ExprStructureUpdate (startPos endPos : SrcPos)
  | N_ExprFunctionCall (startPos endPos : SrcPos) (functionName : String)
      (args : List Expression)

/-- Start position of an expression node. -/
def Expression.startPos : Expression → SrcPos
  | .N_ExprVariable sp _ _ => sp
  | .N_ExprConstantNumber sp _ _ => sp
  | .N_ExprConstantString sp _ _ => sp
  | .N_ExprList sp _ _ => sp
  | .N_ExprRange sp _ => sp
  | .N_ExprTuple sp _ _ => sp
  | .N_ExprStructure sp _ _ _ => sp
  | .N_ExprStructureUpdate sp _ => sp
  | .N_ExprFunctionCall sp _ _ _ => sp

/-- End position of an expression node. -/
def Expression.endPos : Expression → SrcPos
  | .N_ExprVariable _ ep _ => ep
  | .N_ExprConstantNumber _ ep _ => ep
  | .N_ExprConstantString _ ep _ => ep
  | .N_ExprList _ ep _ => ep
  | .N_ExprRange _ ep => ep
  | .N_ExprTuple _ ep _ => ep
  | .N_ExprStructure _ ep _ _ => ep
  | .N_ExprStructureUpdate _ ep => ep
  | .N_ExprFunctionCall _ ep _ _ => ep

/-- Patterns: wildcard, tagged structure, tuple, timeout.  Parameters
carry only their textual identifier (`parameter.value`). -/
inductive Pattern where
  | N_PatternWildcard (startPos endPos : SrcPos)
  | N_PatternStructure (startPos endPos : SrcPos) (constructorName : String)
      (parameters : List String)
  | N_PatternTuple (startPos endPos : SrcPos) (parameters : List String)
  | N_PatternTimeout (startPos endPos : SrcPos)

mutual

inductive Statement where
  | N_StmtBlock (startPos endPos : SrcPos) (statements : List Statement)
  | N_StmtReturn (startPos endPos : SrcPos) (result : Expression)
  | N_StmtIf (startPos endPos : SrcPos) (condition : Expression)
      (thenBlock : Statement) (elseBlock : Option Statement)
  | N_StmtRepeat (startPos endPos : SrcPos) (times : Expression) (body : Statement)
  | N_StmtForeach (startPos endPos : SrcPos) (index : String) (range : Expression)
      (body : Statement)
  | N_StmtWhile (startPos endPos : SrcPos) (condition : Expression) (body : Statement)
  | N_StmtSwitch (startPos endPos : SrcPos) (subject : Expression)
      (branches : List SwitchBranch)
  | N_StmtAssignVariable (startPos endPos : SrcPos) (variableName : String)
      (value : Expression)
  | N_StmtAssignTuple (startPos endPos : SrcPos) (variableNames : List String)
      (value : Expression)
  | N_StmtProcedureCall (startPos endPos : SrcPos) (procedureName : String)
      (args : List Expression)

inductive SwitchBranch where
  | N_SwitchBranch (startPos endPos : SrcPos) (pattern : Pattern) (body : Statement)

end

/-- Top-level definitions.  The compiler reads only the tag, the body of a
`Program`, and node positions; the other payloads are never consulted
(`_compileInteractiveProgram`, `_compileProcedure` and `_compileFunction`
are unimplemented stubs), so they are omitted here. -/
inductive Definition where
  | N_DefProgram (startPos endPos : SrcPos) (body : Statement)
  | N_DefInteractiveProgram (startPos endPos : SrcPos)
  | N_DefProcedure (startPos endPos : SrcPos)
  | N_DefFunction (startPos endPos : SrcPos)
  | N_DefType (startPos endPos : SrcPos)

/-- The AST root (`N_Main`): a list of top-level definitions. -/
structure Main where
  startPos : SrcPos
  endPos : SrcPos
  definitions : List Definition

/-! ## Compiler state, environment, errors -/

/-- Mutable compiler state: the growing `Code` plus the two fresh-name
counters (`_nextLabel`, `_nextVariable`). -/
structure CState where
  code : List Instr
  nextLabel : Nat
  nextVariable : Nat

/-- Compile-time failures.  `err` models a thrown `Error(msg)`;
`referenceError` models a JavaScript `ReferenceError` raised by
evaluating an identifier that is not in scope. -/
inductive Err where
  | err (msg : String)
  | referenceError (name : String)

/-- Read-only services of the compiler: the symbol table
(`isFunction`, `isField`, `constructorType`, `constructorFields`), the
runtime-primitives catalog (`isProcedure`, `isFunction`) and the i18n
message catalog. -/
structure Env where
  primitivesIsProcedure : String → Bool
  primitivesIsFunction : String → Bool
  symtableIsFunction : String → Bool
  symtableIsField : String → Bool
  constructorType : String → String
  constructorFields : String → List String
  i18n : String → String

/-- Fresh label names: `'_l' + nextLabel.toString()`. -/
def labelName (n : Nat) : String := "_l" ++ natDec n

/-- Fresh synthetic variable names: `'_v' + nextVariable.toString()`. -/
def varName (n : Nat) : String := "_v" ++ natDec n

/-- `_freshLabel`: return the next label name and bump the counter. -/
def freshLabel (st : CState) : String × CState :=
  (labelName st.nextLabel, { st with nextLabel := st.nextLabel + 1 })

/-- `_freshVariable`: return the next synthetic variable name and bump
the counter. -/
def freshVariable (st : CState) : String × CState :=
  (varName st.nextVariable, { st with nextVariable := st.nextVariable + 1 })

/-- `_produce`: annotate one instruction with positions and append it to
the code. -/
def produce (sp ep : SrcPos) (op : Op) (st : CState) : CState :=
  { st with code := st.code ++ [⟨sp, ep, op⟩] }

/-- `_produceList`: apply `_produce` to each instruction in order, with
the same positions; the net effect is appending the annotated list. -/
def produceList (sp ep : SrcPos) (ops : List Op) (st : CState) : CState :=
  { st with code := st.code ++ ops.map (fun op => ⟨sp, ep, op⟩) }

/-! ## Pattern lowering (`_compilePatternCheck` / `Bind` / `Unbind`)

These methods only append instructions (they never fail on the closed
pattern type and never touch the fresh-name counters), so they are
modelled as pure functions from a pattern to the appended instruction
list. -/

/-- Pattern check: never pops the subject; falls through on mismatch and
jumps to `targetLabel` on match. -/
def patternCheck (env : Env) (pattern : Pattern) (targetLabel : String) : List Instr :=
  match pattern with
  | .N_PatternWildcard sp ep =>
      [⟨sp, ep, .IJump targetLabel⟩]
  | .N_PatternStructure sp ep constructorName _ =>
      [⟨sp, ep, .ITypeCheck (.TypeStructure (env.constructorType constructorName) [])⟩,
       ⟨sp, ep, .IJumpIfStructure constructorName targetLabel⟩]
  | .N_PatternTuple sp ep parameters =>
      [⟨sp, ep, .ITypeCheck (.TypeTuple (parameters.map fun _ => .TypeAny))⟩,
       ⟨sp, ep, .IJumpIfTuple parameters.length targetLabel⟩]
  | .N_PatternTimeout sp ep =>
      [⟨sp, ep, .IJumpIfStructure (env.i18n "CONS:TIMEOUT") targetLabel⟩]

/-- Tuple-component binding loop: for each parameter at `index`, read the
component and assign the parameter. -/
def bindTupleComponents (sp ep : SrcPos) : Nat → List String → List Instr
  | _, [] => []
  | index, parameter :: parameters =>
      ⟨sp, ep, .IReadTupleComponent index⟩ :: ⟨sp, ep, .ISetVariable parameter⟩ ::
        bindTupleComponents sp ep (index + 1) parameters

/-- Pattern bind: the subject is at the top of the stack and is not
popped.  For a structure pattern the ordered field names come from the
symbol table; the linter guarantees the parameter list has the same
length (the source indexes `parameters[i]` for `i` below the field
count, which the zip reproduces on linted input). -/
def patternBind (env : Env) (pattern : Pattern) : List Instr :=
  match pattern with
  | .N_PatternWildcard _ _ => []
  | .N_PatternStructure sp ep constructorName parameters =>
      if parameters.length = 0 then []
      else
        ((env.constructorFields constructorName).zip parameters).flatMap
          (fun fp => [⟨sp, ep, .IReadStructureField fp.1⟩, ⟨sp, ep, .ISetVariable fp.2⟩])
  | .N_PatternTuple sp ep parameters => bindTupleComponents sp ep 0 parameters
  | .N_PatternTimeout _ _ => []

/-- Pattern unbind: `UnsetVariable` for each bound parameter. -/
def patternUnbind (pattern : Pattern) : List Instr :=
  match pattern with
  | .N_PatternWildcard _ _ => []
  | .N_PatternStructure sp ep _ parameters =>
      parameters.map fun parameter => ⟨sp, ep, .IUnsetVariable parameter⟩
  | .N_PatternTuple sp ep parameters =>
      parameters.map fun parameter => ⟨sp, ep, .IUnsetVariable parameter⟩
  | .N_PatternTimeout _ _ => []

/-! ## Expression lowering (`_compileExpression` and friends) -/

mutual

/-- `_compileExpression`: dispatch on the expression tag.  The
`N_ExprRange` and `N_ExprStructureUpdate` cases are `// TODO` stubs in
the source: the `switch` falls through a bare `break`, emitting nothing
and raising nothing. -/
def compileExpression (env : Env) : Expression → CState → Except Err CState
  | .N_ExprVariable sp ep variableName, st =>
      .ok (produce sp ep (.IPushVariable variableName) st)
  | .N_ExprConstantNumber sp ep number, st =>
      .ok (produce sp ep (.IPushInteger number) st)
  | .N_ExprConstantString sp ep stringValue, st =>
      .ok (produce sp ep (.IPushString stringValue) st)
  | .N_ExprList sp ep elements, st =>
      match compileExpressions env elements st with
      | .error e => .error e
      | .ok st1 => .ok (produce sp ep (.IMakeList elements.length) st1)
  | .N_ExprRange _ _, st => .ok st
  | .N_ExprTuple sp ep elements, st =>
      match compileExpressions env elements st with
      | .error e => .error e
      | .ok st1 => .ok (produce sp ep (.IMakeTuple elements.length) st1)
  | .N_ExprStructure sp ep constructorName fieldBindings, st =>
      match compileFieldValues env fieldBindings st with
      | .error e => .error e
      | .ok st1 =>
          .ok (produce sp ep
            (.IMakeStructure (env.constructorType constructorName) constructorName
              (fieldBindings.map Prod.fst)) st1)
  | .N_ExprStructureUpdate _ _, st => .ok st
  | .N_ExprFunctionCall sp ep functionName args, st =>
      if functionName = "&&" ∨ functionName = "||" then
        .error (.err "short-circuiting not implemented")
      else
        match compileExpressions env args st with
        | .error e => .error e
        | .ok st1 =>
            if env.primitivesIsFunction functionName then
              .ok (produce sp ep (.IPrimitiveCall functionName args.length) st1)
            else if env.symtableIsFunction functionName then
              .error (.err "calling a user-defined function not implemented")
            else if env.symtableIsField functionName then
              .error (.err "accessing a field not implemented")
            else
              .error (.err ("Compiler: " ++ functionName ++ " is an undefined function."))

/-- Left-to-right compilation of a list of expressions (the `for`-loops
over `elements` and `args`). -/
def compileExpressions (env : Env) : List Expression → CState → Except Err CState
  | [], st => .ok st
  | e :: es, st =>
      match compileExpression env e st with
      | .error e2 => .error e2
      | .ok st1 => compileExpressions env es st1

/-- Left-to-right compilation of the values of a structure expression's
field bindings (the field names are collected separately). -/
def compileFieldValues (env : Env) : List (String × Expression) → CState → Except Err CState
  | [], st => .ok st
  | fv :: fvs, st =>
      match compileExpression env fv.2 st with
      | .error e2 => .error e2
      | .ok st1 => compileFieldValues env fvs st1

end

/-! ## Statement lowering (`_compileStatement` and friends) -/

/-- Tuple-assignment loop of `_compileStmtAssignTuple`: for each variable
at `index`, read the tuple component and assign it. -/
def assignTupleComponents (sp ep : SrcPos) : Nat → List String → List Instr
  | _, [] => []
  | index, x :: xs =>
      ⟨sp, ep, .IReadTupleComponent index⟩ :: ⟨sp, ep, .ISetVariable x⟩ ::
        assignTupleComponents sp ep (index + 1) xs

/-- First loop of `_compileStmtSwitch`: allocate a fresh label per branch
and emit that branch's pattern check targeting it.  Returns the branch
labels in order. -/
def compileSwitchChecks (env : Env) : List SwitchBranch → CState → List String × CState
  | [], st => ([], st)
  | .N_SwitchBranch _ _ pattern _ :: bs, st =>
      let fresh := freshLabel st
      let st1 : CState := { fresh.2 with code := fresh.2.code ++ patternCheck env pattern fresh.1 }
      let rest := compileSwitchChecks env bs st1
      (fresh.1 :: rest.1, rest.2)

mutual

/-- `_compileStatement`: dispatch on the statement tag. -/
def compileStatement (env : Env) : Statement → CState → Except Err CState
  | .N_StmtBlock _ _ statements, st => compileStatements env statements st
  | .N_StmtReturn _ _ result, st => compileExpression env result st
  | .N_StmtIf sp ep condition thenBlock none, st =>
      match compileExpression env condition st with
      | .error e => .error e
      | .ok st1 =>
          let st2 := produce condition.startPos condition.endPos
            (.ITypeCheck (.TypeStructure (env.i18n "TYPE:Bool") [])) st1
          let fresh := freshLabel st2
          let st3 := produce sp ep (.IJumpIfFalse fresh.1) fresh.2
          match compileStatement env thenBlock st3 with
          | .error e => .error e
          | .ok st4 => .ok (produce sp ep (.ILabel fresh.1) st4)
  | .N_StmtIf sp ep condition thenBlock (some elseB), st =>
      match compileExpression env condition st with
      | .error e => .error e
      | .ok st1 =>
          let st2 := produce condition.startPos condition.endPos
            (.ITypeCheck (.TypeStructure (env.i18n "TYPE:Bool") [])) st1
          let fresh := freshLabel st2
          let st3 := produce sp ep (.IJumpIfFalse fresh.1) fresh.2
          match compileStatement env thenBlock st3 with
          | .error e => .error e
          | .ok st4 =>
              let freshEnd := freshLabel st4
              let st5 := produceList sp ep [.IJump freshEnd.1, .ILabel fresh.1] freshEnd.2
              match compileStatement env elseB st5 with
              | .error e => .error e
              | .ok st6 => .ok (produce sp ep (.ILabel freshEnd.1) st6)
  | .N_StmtRepeat sp ep times body, st =>
      match compileExpression env times st with
      | .error e => .error e
      | .ok st1 =>
          let st2 := produce times.startPos times.endPos (.ITypeCheck .TypeInteger) st1
          let freshStart := freshLabel st2
          let freshEnd := freshLabel freshStart.2
          let st3 := produceList sp ep
            [.ILabel freshStart.1, .IDup, .IPushInteger 0, .IPrimitiveCall ">" 2,
             .IJumpIfFalse freshEnd.1] freshEnd.2
          match compileStatement env body st3 with
          | .error e => .error e
          | .ok st4 =>
              .ok (produceList sp ep
                [.IPushInteger 1, .IPrimitiveCall "-" 2, .IJump freshStart.1,
                 .ILabel freshEnd.1, .IPop] st4)
  | .N_StmtForeach sp ep index range body, st =>
      let freshStart := freshLabel st
      let freshEnd := freshLabel freshStart.2
      let freshList := freshVariable freshEnd.2
      let freshPos := freshVariable freshList.2
      let freshN := freshVariable freshPos.2
      match compileExpression env range freshN.2 with
      | .error e => .error e
      | .ok st1 =>
          let st2 := produceList range.startPos range.endPos
            [.ITypeCheck (.TypeList .TypeAny), .ISetVariable freshList.1,
             .IPushVariable freshList.1, .IPrimitiveCall "_unsafeListLength" 1,
             .ISetVariable freshN.1] st1
          let st3 := produceList sp ep
            [.IPushInteger 0, .ISetVariable freshPos.1,
             .ILabel freshStart.1,
             .IPushVariable freshPos.1, .IPushVariable freshN.1,
             .IPrimitiveCall "<" 2, .IJumpIfFalse freshEnd.1,
             .IPushVariable freshList.1, .IPushVariable freshPos.1,
             .IPrimitiveCall "_unsafeListNth" 2, .ISetVariable index] st2
          match compileStatement env body st3 with
          | .error e => .error e
          | .ok st4 =>
              .ok (produceList sp ep
                [.IPushVariable freshPos.1, .IPushInteger 1, .IPrimitiveCall "+" 2,
                 .ISetVariable freshPos.1,
                 .IJump freshStart.1,
                 .ILabel freshEnd.1,
                 .IUnsetVariable freshList.1, .IUnsetVariable freshN.1,
                 .IUnsetVariable freshPos.1, .IUnsetVariable index] st4)
  | .N_StmtWhile sp ep condition body, st =>
      let freshStart := freshLabel st
      let freshEnd := freshLabel freshStart.2
      let st1 := produce sp ep (.ILabel freshStart.1) freshEnd.2
      match compileExpression env condition st1 with
      | .error e => .error e
      | .ok st2 =>
          let st3 := produceList sp ep
            [.ITypeCheck (.TypeStructure (env.i18n "TYPE:Bool") []),
             .IJumpIfFalse freshEnd.1] st2
          match compileStatement env body st3 with
          | .error e => .error e
          | .ok st4 => .ok (produceList sp ep [.IJump freshStart.1, .ILabel freshEnd.1] st4)
  | .N_StmtSwitch sp ep subject branches, st =>
      match compileExpression env subject st with
      | .error e => .error e
      | .ok st1 =>
          let checks := compileSwitchChecks env branches st1
          let st2 := produceList sp ep
            [.IPushString (env.i18n "errmsg:switch-does-not-match"),
             .IPrimitiveCall "_FAIL" 1] checks.2
          let freshEnd := freshLabel st2
          match compileSwitchBranches env branches checks.1 freshEnd.1 freshEnd.2 with
          | .error e => .error e
          | .ok st3 => .ok (produce sp ep (.ILabel freshEnd.1) st3)
  | .N_StmtAssignVariable sp ep variableName value, st =>
      match compileExpression env value st with
      | .error e => .error e
      | .ok st1 => .ok (produce sp ep (.ISetVariable variableName) st1)
  | .N_StmtAssignTuple sp ep variableNames value, st =>
      match compileExpression env value st with
      | .error e => .error e
      | .ok st1 =>
          let st2 := produce sp ep
            (.ITypeCheck (.TypeTuple (variableNames.map fun _ => .TypeAny))) st1
          let st3 : CState :=
            { st2 with code := st2.code ++ assignTupleComponents sp ep 0 variableNames }
          .ok (produce sp ep .IPop st3)
  | .N_StmtProcedureCall sp ep procedureName args, st =>
      match compileExpressions env args st with
      | .error e => .error e
      | .ok st1 =>
          if env.primitivesIsProcedure procedureName then
            .ok (produce sp ep (.IPrimitiveCall procedureName args.length) st1)
          else
            -- The source next evaluates `this._symtable.isFunction(functionName)`
            -- where `functionName` is an identifier that is not in scope in
            -- `_compileStmtProcedureCall`, so JavaScript raises a
            -- `ReferenceError` before either remaining branch can run.
            .error (.referenceError "functionName")

/-- The loop of `_compileStmtBlock`. -/
def compileStatements (env : Env) : List Statement → CState → Except Err CState
  | [], st => .ok st
  | s :: ss, st =>
      match compileStatement env s st with
      | .error e => .error e
      | .ok st1 => compileStatements env ss st1

/-- Second loop of `_compileStmtSwitch`: for each branch and its label,
emit the label, the pattern bind, `Pop`, the body, the pattern unbind and
a jump to the end label.  The label list always has exactly one label per
branch (it comes from `compileSwitchChecks`). -/
def compileSwitchBranches (env : Env) :
    List SwitchBranch → List String → String → CState → Except Err CState
  | [], _, _, st => .ok st
  | _ :: _, [], _, st => .ok st
  | .N_SwitchBranch bsp bep pattern body :: bs, label :: labels, labelEnd, st =>
      let st1 := produce bsp bep (.ILabel label) st
      let st2 : CState := { st1 with code := st1.code ++ patternBind env pattern }
      let st3 := produce bsp bep .IPop st2
      match compileStatement env body st3 with
      | .error e => .error e
      | .ok st4 =>
          let st5 : CState := { st4 with code := st4.code ++ patternUnbind pattern }
          let st6 := produce bsp bep (.IJump labelEnd) st5
          compileSwitchBranches env bs labels labelEnd st6

end

/-! ## Top-level driver -/

/-- `_compileProgram`: compile the body statement, then append `Return`
with the definition's positions. -/
def compileProgram (env : Env) (sp ep : SrcPos) (body : Statement) (st : CState) :
    Except Err CState :=
  match compileStatement env body st with
  | .error e => .error e
  | .ok st1 => .ok (produce sp ep .IReturn st1)

/-- `_compileInteractiveProgram`: an unimplemented `// TODO` stub that
emits nothing. -/
def compileInteractiveProgram (st : CState) : Except Err CState := .ok st

/-- `_compileProcedure`: an unimplemented `// TODO` stub that emits
nothing. -/
def compileProcedure (st : CState) : Except Err CState := .ok st

/-- `_compileFunction`: an unimplemented `// TODO` stub that emits
nothing. -/
def compileFunction (st : CState) : Except Err CState := .ok st

/-- Entry sweep of `_compileMain`: lower each `Program` or
`InteractiveProgram` definition, in order. -/
def compileDefinitionsEntry (env : Env) : List Definition → CState → Except Err CState
  | [], st => .ok st
  | .N_DefProgram sp ep body :: ds, st =>
      match compileProgram env sp ep body st with
      | .error e => .error e
      | .ok st1 => compileDefinitionsEntry env ds st1
  | .N_DefInteractiveProgram _ _ :: ds, st =>
      match compileInteractiveProgram st with
      | .error e => .error e
      | .ok st1 => compileDefinitionsEntry env ds st1
  | .N_DefProcedure _ _ :: ds, st => compileDefinitionsEntry env ds st
  | .N_DefFunction _ _ :: ds, st => compileDefinitionsEntry env ds st
  | .N_DefType _ _ :: ds, st => compileDefinitionsEntry env ds st

/-- Callable sweep of `_compileMain`: lower each `Procedure` or
`Function` definition, in order. -/
def compileDefinitionsCallables : List Definition → CState → Except Err CState
  | [], st => .ok st
  | .N_DefProcedure _ _ :: ds, st =>
      match compileProcedure st with
      | .error e => .error e
      | .ok st1 => compileDefinitionsCallables ds st1
  | .N_DefFunction _ _ :: ds, st =>
      match compileFunction st with
      | .error e => .error e
      | .ok st1 => compileDefinitionsCallables ds st1
  | .N_DefProgram _ _ _ :: ds, st => compileDefinitionsCallables ds st
  | .N_DefInteractiveProgram _ _ :: ds, st => compileDefinitionsCallables ds st
  | .N_DefType _ _ :: ds, st => compileDefinitionsCallables ds st

/-- `_compileMain`: accept the empty source with a lone `Return`;
otherwise run the entry sweep and then the callable sweep. -/
def compileMain (env : Env) (ast : Main) (st : CState) : Except Err CState :=
  if ast.definitions.length = 0 then
    .ok (produce ast.startPos ast.endPos .IReturn st)
  else
    match compileDefinitionsEntry env ast.definitions st with
    | .error e => .error e
    | .ok st1 => compileDefinitionsCallables ast.definitions st1

/-- The state of a freshly constructed `Compiler`: empty code, both
fresh-name counters at zero. -/
def newCompiler : CState := ⟨[], 0, 0⟩

/-- `compile(ast)`: run `_compileMain` on a fresh compiler and hand the
code to the caller. -/
def compile (env : Env) (ast : Main) : Except Err (List Instr) :=
  match compileMain env ast newCompiler with
  | .error e => .error e
  | .ok st => .ok st.code

/-! ## Injectivity of the fresh-name rendering -/

/-- Value of a decimal digit string (left fold). -/
def decVal (cs : List Char) : Nat := cs.foldl (fun a ch => a * 10 + (ch.toNat - 48)) 0

theorem decVal_append_digit (cs : List Char) (ch : Char) :
    decVal (cs ++ [ch]) = 10 * decVal cs + (ch.toNat - 48) := by
  simp [decVal, List.foldl_append, Nat.mul_comm]

theorem decChar_val : ∀ d, d < 10 → (decChar d).toNat - 48 = d := by decide

theorem decVal_natDecAux : ∀ fuel n, n ≤ fuel → decVal (natDecAux fuel n) = n := by
  intro fuel
  induction fuel with
  | zero => intro n hn; interval_cases n; simp [natDecAux, decVal]
  | succ fuel ih =>
      intro n hn
      by_cases h0 : n = 0
      · simp [natDecAux, h0, decVal]
      · rw [natDecAux, if_neg h0, decVal_append_digit,
          ih (n / 10) (by omega), decChar_val (n % 10) (Nat.mod_lt n (by omega))]
        omega

theorem decVal_natDec (n : Nat) : decVal (natDec n).data = n := by
  by_cases h0 : n = 0
  · subst h0; rfl
  · rw [natDec, if_neg h0]
    exact decVal_natDecAux n n le_rfl

theorem natDec_injective : Function.Injective natDec := by
  intro m n h
  have := decVal_natDec m
  rw [h, decVal_natDec] at this
  omega

theorem labelName_injective : Function.Injective labelName := by
  intro m n h
  apply natDec_injective
  apply String.ext
  have hd := congrArg String.data h
  simpa [labelName, String.data_append] using hd

theorem varName_injective : Function.Injective varName := by
  intro m n h
  apply natDec_injective
  apply String.ext
  have hd := congrArg String.data h
  simpa [varName, String.data_append] using hd

/-! ## Observations on emitted code -/

/-- Names of the `Label` instructions of a code sequence, in order. -/
def labelsOf (code : List Instr) : List String :=
  code.filterMap fun i =>
    match i.op with
    | .ILabel l => some l
    | _ => none

/-- Targets of the `Jump`, `JumpIfFalse`, `JumpIfStructure` and
`JumpIfTuple` instructions of a code sequence, in order. -/
def jumpTargetsOf (code : List Instr) : List String :=
  code.filterMap fun i =>
    match i.op with
    | .IJump l => some l
    | .IJumpIfFalse l => some l
    | .IJumpIfStructure _ l => some l
    | .IJumpIfTuple _ l => some l
    | _ => none

/-- Names assigned by the `SetVariable` instructions of a code sequence,
in order. -/
def setVariablesOf (code : List Instr) : List String :=
  code.filterMap fun i =>
    match i.op with
    | .ISetVariable x => some x
    | _ => none

/-- Net stack-depth effect of one opcode, as counted by a symbolic stack
simulator over straight-line code: pushes count +1, pops count −1; a
`PrimitiveCall` to a primitive function pops its arguments and pushes one
result, while a `PrimitiveCall` to a primitive procedure pushes nothing. -/
def opStackEffect (env : Env) : Op → Int
  | .IPushInteger _ => 1
  | .IPushString _ => 1
  | .IPushVariable _ => 1
  | .ISetVariable _ => -1
  | .IUnsetVariable _ => 0
  | .ILabel _ => 0
  | .IJump _ => 0
  | .IJumpIfFalse _ => -1
  | .IJumpIfStructure _ _ => 0
  | .IJumpIfTuple _ _ => 0
  | .ICall _ nargs => 1 - nargs
  | .IReturn => 0
  | .IMakeTuple size => 1 - size
  | .IMakeList size => 1 - size
  | .IMakeStructure _ _ fieldNames => 1 - fieldNames.length
  | .IUpdateStructure _ _ fieldNames => - fieldNames.length
  | .IReadTupleComponent _ => 1
  | .IReadStructureField _ => 1
  | .IAdd => -1
  | .IDup => 1
  | .IPop => -1
  | .IPrimitiveCall name nargs =>
      if env.primitivesIsFunction name then 1 - nargs else - nargs
  | .ISaveState => 0
  | .IRestoreState => 0
  | .ITypeCheck _ => 0

/-- Net stack-depth change of a straight-line instruction sequence. -/
def netStackEffect (env : Env) (code : List Instr) : Int :=
  (code.map fun i => opStackEffect env i.op).sum

/-! ## Concrete test fixtures -/

/-- A concrete environment: no primitives, no user functions or fields,
identity message catalog. -/
def envA : Env :=
  { primitivesIsProcedure := fun _ => false
    primitivesIsFunction := fun _ => false
    symtableIsFunction := fun _ => false
    symtableIsField := fun _ => false
    constructorType := fun _ => ""
    constructorFields := fun _ => []
    i18n := fun s => s }

/-- An environment whose primitives catalog contains the procedure
`"Poner"` and the function `">"`. -/
def envB : Env :=
  { primitivesIsProcedure := fun s => s == "Poner"
    primitivesIsFunction := fun s => s == ">"
    symtableIsFunction := fun _ => false
    symtableIsField := fun _ => false
    constructorType := fun _ => ""
    constructorFields := fun _ => []
    i18n := fun s => s }

/-- `program { repeat 3 { } }`. -/
def repeatProg : Main :=
  ⟨0, 9, [.N_DefProgram 0 9
    (.N_StmtBlock 1 8
      [.N_StmtRepeat 2 7 (.N_ExprConstantNumber 3 4 3) (.N_StmtBlock 5 6 [])])]⟩

/-- `program { foreach i in xs { y := i } }`. -/
def foreachProg : Main :=
  ⟨0, 9, [.N_DefProgram 0 9
    (.N_StmtBlock 1 8
      [.N_StmtForeach 2 7 "i" (.N_ExprVariable 3 4 "xs")
        (.N_StmtBlock 5 6 [.N_StmtAssignVariable 5 6 "y" (.N_ExprVariable 5 6 "i")])])]⟩

/-- `program { switch (x) { C -> { } } }`. -/
def switchProg : Main :=
  ⟨0, 9, [.N_DefProgram 0 9
    (.N_StmtSwitch 1 8 (.N_ExprVariable 2 3 "x")
      [.N_SwitchBranch 4 7 (.N_PatternStructure 4 5 "C" []) (.N_StmtBlock 6 7 [])])]⟩

/-- Is a definition an entry point (a `Program` or an
`InteractiveProgram`), i.e. handled by the entry sweep of
`_compileMain`? -/
def isEntryPoint : Definition → Bool
  | .N_DefProgram _ _ _ => true
  | .N_DefInteractiveProgram _ _ => true
  | _ => false

theorem compileDefinitionsCallables_ok : ∀ (ds : List Definition) (st : CState),
    compileDefinitionsCallables ds st = .ok st := by
  intro ds
  induction ds with
  | nil => intro st; rfl
  | cons d ds ih =>
      intro st
      cases d <;> simp [compileDefinitionsCallables, compileProcedure, compileFunction, ih]

theorem compileDefinitionsEntry_skip (env : Env) :
    ∀ (ds : List Definition) (st : CState), (∀ d ∈ ds, isEntryPoint d = false) →
      compileDefinitionsEntry env ds st = .ok st := by
  intro ds
  induction ds with
  | nil => intro st _; rfl
  | cons d ds ih =>
      intro st h
      have hd := h d (by simp)
      have hds : ∀ d ∈ ds, isEntryPoint d = false := fun d hmem => h d (by simp [hmem])
      cases d with
      | N_DefProgram sp ep body => simp [isEntryPoint] at hd
      | N_DefInteractiveProgram sp ep => simp [isEntryPoint] at hd
      | N_DefProcedure sp ep => simpa [compileDefinitionsEntry] using ih st hds
      | N_DefFunction sp ep => simpa [compileDefinitionsEntry] using ih st hds
      | N_DefType sp ep => simpa [compileDefinitionsEntry] using ih st hds

/-- C8.  Empty program: an AST with no definitions compiles to exactly
one `Return` instruction carrying the positions of the AST root. -/
theorem compile_empty_program (env : Env) (sp ep : SrcPos) :
    compile env ⟨sp, ep, []⟩ = .ok [⟨sp, ep, .IReturn⟩] := rfl

/-- C9.  Determinism: two freshly constructed compiler instances over the
same symbol table produce identical code for the same AST — the fresh
compiler state is fully determined by the constructor, and compilation
is a pure function of the environment, the AST and that state. -/
theorem compile_deterministic (env : Env) (ast : Main) (s1 s2 : CState)
    (h1 : s1 = newCompiler) (h2 : s2 = newCompiler) :
    compileMain env ast s1 = compileMain env ast s2 := by
  rw [h1, h2]

theorem compile_deterministic_witness :
    compileMain envA repeatProg newCompiler = compileMain envA repeatProg newCompiler :=
  compile_deterministic envA repeatProg newCompiler newCompiler rfl rfl

/-- C10.  An AST whose definitions list is non-empty but contains no
`Program` and no `InteractiveProgram` compiles without error to an empty
code: the entry sweep matches nothing and the callable sweep dispatches
to the unimplemented stubs, which emit nothing — in particular no
`Return` is emitted. -/
theorem no_entry_point_empty_code (env : Env) (ast : Main)
    (h1 : ast.definitions ≠ []) (h2 : ∀ d ∈ ast.definitions, isEntryPoint d = false) :
    compile env ast = .ok [] := by
  have hlen : ¬ ast.definitions.length = 0 := by
    simpa [List.length_eq_zero] using h1
  rw [compile, compileMain, if_neg hlen,
    compileDefinitionsEntry_skip env ast.definitions newCompiler h2]
  simp [compileDefinitionsCallables_ok, newCompiler]

theorem no_entry_point_empty_code_witness :
    compile envA ⟨0, 1, [.N_DefType 0 1, .N_DefProcedure 0 1, .N_DefFunction 0 1]⟩ = .ok [] :=
  no_entry_point_empty_code envA ⟨0, 1, [.N_DefType 0 1, .N_DefProcedure 0 1, .N_DefFunction 0 1]⟩
    (List.cons_ne_nil _ _)
    (by intro d hd; fin_cases hd <;> rfl)

/-- C4.  Procedure-call dispatch: the arguments are compiled
left-to-right and a primitive procedure is dispatched to
`PrimitiveCall(P, n)`; but for any non-primitive procedure the source
consults the identifier `functionName`, which is not in scope in
`_compileStmtProcedureCall`, so compilation fails with a JavaScript
`ReferenceError` instead of reaching the user-procedure extension point
or the "undefined procedure" error. -/
theorem procedure_call_dispatch_bug :
    compileStatement envB
        (.N_StmtProcedureCall 0 3 "Poner" [.N_ExprConstantNumber 1 2 5]) ⟨[], 0, 0⟩
      = .ok ⟨[⟨1, 2, .IPushInteger 5⟩, ⟨0, 3, .IPrimitiveCall "Poner" 1⟩], 0, 0⟩ ∧
    envB.primitivesIsProcedure "P" = false ∧
    compileStatement envB
        (.N_StmtProcedureCall 0 3 "P" [.N_ExprConstantNumber 1 2 5]) ⟨[], 0, 0⟩
      = .error (.referenceError "functionName") :=
  ⟨rfl, rfl, rfl⟩

/-- C7.  Unimplemented constructs: a `FunctionCall` of `&&` or `||`
raises an explicit "not implemented" error, but compiling a `Range` or a
`StructureUpdate` expression silently succeeds and emits nothing — the
`switch` in `_compileExpression` falls through a bare `break` on those
tags. -/
theorem unimplemented_constructs_behavior :
    compileExpression envA (.N_ExprRange 0 1) ⟨[], 0, 0⟩ = .ok ⟨[], 0, 0⟩ ∧
    compileExpression envA (.N_ExprStructureUpdate 0 1) ⟨[], 0, 0⟩ = .ok ⟨[], 0, 0⟩ ∧
    compileExpression envA (.N_ExprFunctionCall 0 1 "&&" []) ⟨[], 0, 0⟩
      = .error (.err "short-circuiting not implemented") ∧
    compileExpression envA (.N_ExprFunctionCall 0 1 "||" []) ⟨[], 0, 0⟩
      = .error (.err "short-circuiting not implemented") :=
  ⟨rfl, rfl, by rfl, by rfl⟩

/-- C1.  Stack discipline, measured by the symbolic straight-line stack
simulator: compiling a `Range` expression emits nothing (net 0, not the
required +1), and consequently the statement `x := <range>` compiles to
a lone `SetVariable` whose net stack effect is −1, not 0. -/
theorem stack_discipline_range_stub :
    compileExpression envA (.N_ExprRange 1 2) ⟨[], 0, 0⟩ = .ok ⟨[], 0, 0⟩ ∧
    netStackEffect envA [] = 0 ∧
    compileStatement envA (.N_StmtAssignVariable 0 3 "x" (.N_ExprRange 1 2)) ⟨[], 0, 0⟩
      = .ok ⟨[⟨0, 3, .ISetVariable "x"⟩], 0, 0⟩ ∧
    netStackEffect envA [⟨0, 3, .ISetVariable "x"⟩] = -1 :=
  ⟨rfl, rfl, rfl, rfl⟩

/-- C5 counterexample.  On `program { foreach i in xs { y := i } }`
compiled from a fresh compiler, the first three `SetVariable` targets are
not `_v0`, `_v1`, `_v2` in that order: the source allocates the fresh
variables in the order list, position, length, so the foreach template
assigns `_v0` (the list), then `_v2` (the length), then `_v1` (the
position). -/
theorem foreach_allocation_counterexample :
    (match compile envA foreachProg with
     | .ok code => (setVariablesOf code).take 3
     | .error _ => []) ≠ ["_v0", "_v1", "_v2"] := by
  decide

/-! ## Label well-formedness of the emitted code (claim C2)

The invariant carried through the compiler: a compilation step that
starts with label counter `nl` and ends with label counter `nl'` appends
a code delta whose labels all have shape `_l i` with `nl ≤ i < nl'`, are
pairwise distinct, and contain every jump target of the delta. -/

theorem labelsOf_append (a b : List Instr) :
    labelsOf (a ++ b) = labelsOf a ++ labelsOf b := by
  simp [labelsOf]

theorem jumpTargetsOf_append (a b : List Instr) :
    jumpTargetsOf (a ++ b) = jumpTargetsOf a ++ jumpTargetsOf b := by
  simp [jumpTargetsOf]

theorem CState.eq_of {c : List Instr} {nl nv : Nat} (st : CState)
    (hc : st.code = c) (hl : st.nextLabel = nl) (hv : st.nextVariable = nv) :
    st = ⟨c, nl, nv⟩ := by
  cases st
  simp_all

/-- Scoped label discipline of a code delta emitted between label-counter
values `nl` and `nl'`. -/
def WellScoped (nl nl' : Nat) (code : List Instr) : Prop :=
  (∀ l ∈ labelsOf code, ∃ i, nl ≤ i ∧ i < nl' ∧ l = labelName i) ∧
  (labelsOf code).Nodup ∧
  (∀ t ∈ jumpTargetsOf code, t ∈ labelsOf code)

theorem WellScoped.of_no_labels {nl nl' : Nat} {code : List Instr}
    (h1 : labelsOf code = []) (h2 : jumpTargetsOf code = []) :
    WellScoped nl nl' code := by
  refine ⟨?_, ?_, ?_⟩ <;> simp [h1, h2]

theorem WellScoped.mono {nl nl' nl0 nl1 : Nat} {code : List Instr}
    (h : WellScoped nl nl' code) (h0 : nl0 ≤ nl) (h1 : nl' ≤ nl1) :
    WellScoped nl0 nl1 code := by
  obtain ⟨hrange, hnodup, htargets⟩ := h
  refine ⟨?_, hnodup, htargets⟩
  intro l hl
  obtain ⟨i, hi1, hi2, hi3⟩ := hrange l hl
  exact ⟨i, by omega, by omega, hi3⟩

theorem WellScoped.append {nl nl2 nl3 : Nat} {c1 c2 : List Instr}
    (h1 : WellScoped nl nl2 c1) (h2 : WellScoped nl2 nl3 c2)
    (hle : nl ≤ nl2) (hle2 : nl2 ≤ nl3) :
    WellScoped nl nl3 (c1 ++ c2) := by
  obtain ⟨r1, n1, t1⟩ := h1
  obtain ⟨r2, n2, t2⟩ := h2
  have hdisj : ∀ l ∈ labelsOf c1, l ∉ labelsOf c2 := by
    intro l hl hl2
    obtain ⟨i, hi1, hi2, hi3⟩ := r1 l hl
    obtain ⟨j, hj1, hj2, hj3⟩ := r2 l hl2
    have : i = j := labelName_injective (hi3 ▸ hj3)
    omega
  refine ⟨?_, ?_, ?_⟩
  · intro l hl
    rw [labelsOf_append, List.mem_append] at hl
    rcases hl with hl | hl
    · obtain ⟨i, hi1, hi2, hi3⟩ := r1 l hl
      exact ⟨i, hi1, by omega, hi3⟩
    · obtain ⟨i, hi1, hi2, hi3⟩ := r2 l hl
      exact ⟨i, by omega, hi2, hi3⟩
  · rw [labelsOf_append]
    exact List.Nodup.append n1 n2 (List.disjoint_left.mpr hdisj)
  · intro t ht
    rw [jumpTargetsOf_append, List.mem_append] at ht
    rw [labelsOf_append, List.mem_append]
    rcases ht with ht | ht
    · exact Or.inl (t1 t ht)
    · exact Or.inr (t2 t ht)

/-! ### Expressions never emit labels or jumps and never touch the
counters -/

mutual

theorem compileExpression_ok (env : Env) (e : Expression) (st st' : CState)
    (h : compileExpression env e st = .ok st') :
    st'.nextLabel = st.nextLabel ∧ st'.nextVariable = st.nextVariable ∧
      ∃ d, st'.code = st.code ++ d ∧ labelsOf d = [] ∧ jumpTargetsOf d = [] := by
  cases e with
  | N_ExprVariable sp ep x =>
      simp only [compileExpression] at h
      injection h with h
      subst h
      exact ⟨rfl, rfl, [⟨sp, ep, .IPushVariable x⟩], rfl, rfl, rfl⟩
  | N_ExprConstantNumber sp ep n =>
      simp only [compileExpression] at h
      injection h with h
      subst h
      exact ⟨rfl, rfl, [⟨sp, ep, .IPushInteger n⟩], rfl, rfl, rfl⟩
  | N_ExprConstantString sp ep s =>
      simp only [compileExpression] at h
      injection h with h
      subst h
      exact ⟨rfl, rfl, [⟨sp, ep, .IPushString s⟩], rfl, rfl, rfl⟩
  | N_ExprList sp ep elements =>
      rw [compileExpression] at h
      cases hs : compileExpressions env elements st with
      | error e2 => rw [hs] at h; exact absurd h (by simp)
      | ok st1 =>
          rw [hs] at h
          injection h with h
          subst h
          obtain ⟨hnl, hnv, d, hcode, hlab, htar⟩ :=
            compileExpressions_ok env elements st st1 hs
          refine ⟨hnl, hnv, d ++ [⟨sp, ep, .IMakeList elements.length⟩], ?_, ?_, ?_⟩
          · simp [produce, hcode]
          · rw [labelsOf_append, hlab]; rfl
          · rw [jumpTargetsOf_append, htar]; rfl
  | N_ExprRange sp ep =>
      simp only [compileExpression] at h
      injection h with h
      subst h
      exact ⟨rfl, rfl, [], by simp, rfl, rfl⟩
  | N_ExprTuple sp ep elements =>
      rw [compileExpression] at h
      cases hs : compileExpressions env elements st with
      | error e2 => rw [hs] at h; exact absurd h (by simp)
      | ok st1 =>
          rw [hs] at h
          injection h with h
          subst h
          obtain ⟨hnl, hnv, d, hcode, hlab, htar⟩ :=
            compileExpressions_ok env elements st st1 hs
          refine ⟨hnl, hnv, d ++ [⟨sp, ep, .IMakeTuple elements.length⟩], ?_, ?_, ?_⟩
          · simp [produce, hcode]
          · rw [labelsOf_append, hlab]; rfl
          · rw [jumpTargetsOf_append, htar]; rfl
  | N_ExprStructure sp ep constructorName fieldBindings =>
      rw [compileExpression] at h
      cases hs : compileFieldValues env fieldBindings st with
      | error e2 => rw [hs] at h; exact absurd h (by simp)
      | ok st1 =>
          rw [hs] at h
          injection h with h
          subst h
          obtain ⟨hnl, hnv, d, hcode, hlab, htar⟩ :=
            compileFieldValues_ok env fieldBindings st st1 hs
          refine ⟨hnl, hnv,
            d ++ [⟨sp, ep, .IMakeStructure (env.constructorType constructorName)
              constructorName (fieldBindings.map Prod.fst)⟩], ?_, ?_, ?_⟩
          · simp [produce, hcode]
          · rw [labelsOf_append, hlab]; rfl
          · rw [jumpTargetsOf_append, htar]; rfl
  | N_ExprStructureUpdate sp ep =>
      simp only [compileExpression] at h
      injection h with h
      subst h
      exact ⟨rfl, rfl, [], by simp, rfl, rfl⟩
  | N_ExprFunctionCall sp ep functionName args =>
      rw [compileExpression] at h
      by_cases hf : functionName = "&&" ∨ functionName = "||"
      · rw [if_pos hf] at h
        exact absurd h (by simp)
      · rw [if_neg hf] at h
        cases hs : compileExpressions env args st with
        | error e2 => rw [hs] at h; exact absurd h (by simp)
        | ok st1 =>
            rw [hs] at h
            simp only [] at h
            obtain ⟨hnl, hnv, d, hcode, hlab, htar⟩ :=
              compileExpressions_ok env args st st1 hs
            by_cases hp : env.primitivesIsFunction functionName = true
            · rw [if_pos hp] at h
              injection h with h
              subst h
              refine ⟨hnl, hnv, d ++ [⟨sp, ep, .IPrimitiveCall functionName args.length⟩],
                ?_, ?_, ?_⟩
              · simp [produce, hcode]
              · rw [labelsOf_append, hlab]; rfl
              · rw [jumpTargetsOf_append, htar]; rfl
            · rw [if_neg hp] at h
              by_cases hq : env.symtableIsFunction functionName = true
              · rw [if_pos hq] at h; exact absurd h (by simp)
              · rw [if_neg hq] at h
                by_cases hr : env.symtableIsField functionName = true
                · rw [if_pos hr] at h; exact absurd h (by simp)
                · rw [if_neg hr] at h; exact absurd h (by simp)

theorem compileExpressions_ok (env : Env) (es : List Expression) (st st' : CState)
    (h : compileExpressions env es st = .ok st') :
    st'.nextLabel = st.nextLabel ∧ st'.nextVariable = st.nextVariable ∧
      ∃ d, st'.code = st.code ++ d ∧ labelsOf d = [] ∧ jumpTargetsOf d = [] := by
  cases es with
  | nil =>
      simp only [compileExpressions] at h
      injection h with h
      subst h
      exact ⟨rfl, rfl, [], by simp, rfl, rfl⟩
  | cons e es =>
      rw [compileExpressions] at h
      cases hs : compileExpression env e st with
      | error e2 => rw [hs] at h; exact absurd h (by simp)
      | ok st1 =>
          rw [hs] at h
          obtain ⟨hnl1, hnv1, d1, hcode1, hlab1, htar1⟩ :=
            compileExpression_ok env e st st1 hs
          obtain ⟨hnl2, hnv2, d2, hcode2, hlab2, htar2⟩ :=
            compileExpressions_ok env es st1 st' h
          refine ⟨hnl2.trans hnl1, hnv2.trans hnv1, d1 ++ d2, ?_, ?_, ?_⟩
          · rw [hcode2, hcode1, List.append_assoc]
          · rw [labelsOf_append, hlab1, hlab2]; rfl
          · rw [jumpTargetsOf_append, htar1, htar2]; rfl

theorem compileFieldValues_ok (env : Env) (fvs : List (String × Expression))
    (st st' : CState)
    (h : compileFieldValues env fvs st = .ok st') :
    st'.nextLabel = st.nextLabel ∧ st'.nextVariable = st.nextVariable ∧
      ∃ d, st'.code = st.code ++ d ∧ labelsOf d = [] ∧ jumpTargetsOf d = [] := by
  cases fvs with
  | nil =>
      simp only [compileFieldValues] at h
      injection h with h
      subst h
      exact ⟨rfl, rfl, [], by simp, rfl, rfl⟩
  | cons fv fvs =>
      rw [compileFieldValues] at h
      cases hs : compileExpression env fv.2 st with
      | error e2 => rw [hs] at h; exact absurd h (by simp)
      | ok st1 =>
          rw [hs] at h
          obtain ⟨hnl1, hnv1, d1, hcode1, hlab1, htar1⟩ :=
            compileExpression_ok env fv.2 st st1 hs
          obtain ⟨hnl2, hnv2, d2, hcode2, hlab2, htar2⟩ :=
            compileFieldValues_ok env fvs st1 st' h
          refine ⟨hnl2.trans hnl1, hnv2.trans hnv1, d1 ++ d2, ?_, ?_, ?_⟩
          · rw [hcode2, hcode1, List.append_assoc]
          · rw [labelsOf_append, hlab1, hlab2]; rfl
          · rw [jumpTargetsOf_append, htar1, htar2]; rfl

end

/-! ### Pattern and tuple-assignment code emits no labels; checks target
exactly their branch label -/

theorem labelsOf_patternCheck (env : Env) (p : Pattern) (l : String) :
    labelsOf (patternCheck env p l) = [] := by
  cases p <;> rfl

theorem jumpTargetsOf_patternCheck (env : Env) (p : Pattern) (l : String) :
    jumpTargetsOf (patternCheck env p l) = [l] := by
  cases p <;> rfl

theorem bindTupleComponents_no_labels (sp ep : SrcPos) (ps : List String) :
    ∀ i : Nat, labelsOf (bindTupleComponents sp ep i ps) = [] ∧
      jumpTargetsOf (bindTupleComponents sp ep i ps) = [] := by
  induction ps with
  | nil => intro i; exact ⟨rfl, rfl⟩
  | cons p ps ih =>
      intro i
      obtain ⟨ih1, ih2⟩ := ih (i + 1)
      constructor
      · simpa [bindTupleComponents, labelsOf] using ih1
      · simpa [bindTupleComponents, jumpTargetsOf] using ih2

theorem patternBind_no_labels (env : Env) (p : Pattern) :
    labelsOf (patternBind env p) = [] ∧ jumpTargetsOf (patternBind env p) = [] := by
  cases p with
  | N_PatternWildcard sp ep => exact ⟨rfl, rfl⟩
  | N_PatternTimeout sp ep => exact ⟨rfl, rfl⟩
  | N_PatternTuple sp ep parameters => exact bindTupleComponents_no_labels sp ep parameters 0
  | N_PatternStructure sp ep constructorName parameters =>
      by_cases hz : parameters.length = 0
      · rw [patternBind, if_pos hz]
        exact ⟨rfl, rfl⟩
      · rw [patternBind]
        rw [if_neg hz]
        constructor
        · rw [labelsOf, List.filterMap_eq_nil_iff]
          intro a ha
          simp only [List.mem_flatMap] at ha
          obtain ⟨fp, _, ha⟩ := ha
          simp only [List.mem_cons, List.not_mem_nil, or_false] at ha
          rcases ha with rfl | rfl <;> rfl
        · rw [jumpTargetsOf, List.filterMap_eq_nil_iff]
          intro a ha
          simp only [List.mem_flatMap] at ha
          obtain ⟨fp, _, ha⟩ := ha
          simp only [List.mem_cons, List.not_mem_nil, or_false] at ha
          rcases ha with rfl | rfl <;> rfl

theorem patternUnbind_no_labels (p : Pattern) :
    labelsOf (patternUnbind p) = [] ∧ jumpTargetsOf (patternUnbind p) = [] := by
  cases p with
  | N_PatternWildcard sp ep => exact ⟨rfl, rfl⟩
  | N_PatternTimeout sp ep => exact ⟨rfl, rfl⟩
  | N_PatternTuple sp ep parameters =>
      constructor
      · rw [labelsOf, List.filterMap_eq_nil_iff]
        intro a ha
        simp only [patternUnbind, List.mem_map] at ha
        obtain ⟨x, _, rfl⟩ := ha
        rfl
      · rw [jumpTargetsOf, List.filterMap_eq_nil_iff]
        intro a ha
        simp only [patternUnbind, List.mem_map] at ha
        obtain ⟨x, _, rfl⟩ := ha
        rfl
  | N_PatternStructure sp ep constructorName parameters =>
      constructor
      · rw [labelsOf, List.filterMap_eq_nil_iff]
        intro a ha
        simp only [patternUnbind, List.mem_map] at ha
        obtain ⟨x, _, rfl⟩ := ha
        rfl
      · rw [jumpTargetsOf, List.filterMap_eq_nil_iff]
        intro a ha
        simp only [patternUnbind, List.mem_map] at ha
        obtain ⟨x, _, rfl⟩ := ha
        rfl

theorem assignTupleComponents_no_labels (sp ep : SrcPos) (xs : List String) :
    ∀ i : Nat, labelsOf (assignTupleComponents sp ep i xs) = [] ∧
      jumpTargetsOf (assignTupleComponents sp ep i xs) = [] := by
  induction xs with
  | nil => intro i; exact ⟨rfl, rfl⟩
  | cons x xs ih =>
      intro i
      obtain ⟨ih1, ih2⟩ := ih (i + 1)
      constructor
      · simpa [assignTupleComponents, labelsOf] using ih1
      · simpa [assignTupleComponents, jumpTargetsOf] using ih2

/-- Characterization of the first loop of `_compileStmtSwitch`: it
allocates the consecutive labels `_l nl, …, _l (nl+k−1)` (one per
branch, in order), appends only check code (no labels), and the check
code's jump targets are exactly those labels. -/
theorem compileSwitchChecks_spec (env : Env) :
    ∀ (bs : List SwitchBranch) (c : List Instr) (nl nv : Nat),
      ∃ d, compileSwitchChecks env bs ⟨c, nl, nv⟩ =
          ((List.range' nl bs.length).map labelName, ⟨c ++ d, nl + bs.length, nv⟩) ∧
        labelsOf d = [] ∧
        jumpTargetsOf d = (List.range' nl bs.length).map labelName := by
  intro bs
  induction bs with
  | nil =>
      intro c nl nv
      exact ⟨[], by simp [compileSwitchChecks], rfl, rfl⟩
  | cons b bs ih =>
      intro c nl nv
      obtain ⟨bsp, bep, pattern, body⟩ := b
      obtain ⟨d', hrec, hlab, htar⟩ :=
        ih (c ++ patternCheck env pattern (labelName nl)) (nl + 1) nv
      refine ⟨patternCheck env pattern (labelName nl) ++ d', ?_, ?_, ?_⟩
      · rw [compileSwitchChecks, freshLabel]
        simp only [hrec, List.length_cons, List.range'_succ, List.map_cons,
          Prod.mk.injEq, CState.mk.injEq, List.append_assoc, true_and, and_true]
        omega
      · rw [labelsOf_append, labelsOf_patternCheck, hlab]
        rfl
      · rw [jumpTargetsOf_append, jumpTargetsOf_patternCheck, htar,
          List.length_cons, List.range'_succ, List.map_cons]
        rfl

theorem nodup_append_singleton {l : List String} {x : String}
    (h : l.Nodup) (hx : x ∉ l) : (l ++ [x]).Nodup := by
  rw [List.nodup_append]
  refine ⟨h, List.nodup_singleton x, ?_⟩
  rw [List.disjoint_left]
  intro a ha hax
  rw [List.mem_singleton] at hax
  exact hx (hax ▸ ha)

/-- Label shape of the loop lowerings (`while`, `repeat`, `foreach`):
a start label `_l NL` emitted up front, the body labels in the middle,
an end label `_l (NL+1)` at the end; the jumps target the end label
(`JumpIfFalse`), the body labels, and the start label (back jump). -/
theorem loop_shape {NL NL4 : Nat} {LB TB : List String}
    (hb : NL + 1 + 1 ≤ NL4)
    (rbody : ∀ l ∈ LB, ∃ i, NL + 1 + 1 ≤ i ∧ i < NL4 ∧ l = labelName i)
    (nbody : LB.Nodup)
    (tbody : ∀ t ∈ TB, t ∈ LB) :
    (∀ l ∈ labelName NL :: (LB ++ [labelName (NL + 1)]),
        ∃ i, NL ≤ i ∧ i < NL4 ∧ l = labelName i) ∧
    (labelName NL :: (LB ++ [labelName (NL + 1)])).Nodup ∧
    (∀ t ∈ labelName (NL + 1) :: (TB ++ [labelName NL]),
        t ∈ labelName NL :: (LB ++ [labelName (NL + 1)])) := by
  refine ⟨?_, ?_, ?_⟩
  · intro l hl
    simp only [List.mem_cons, List.mem_append, List.mem_singleton, List.not_mem_nil, or_false] at hl
    rcases hl with rfl | hl | rfl
    · exact ⟨NL, le_refl NL, by omega, rfl⟩
    · obtain ⟨i, hi1, hi2, hi3⟩ := rbody l hl
      exact ⟨i, by omega, hi2, hi3⟩
    · exact ⟨NL + 1, by omega, by omega, rfl⟩
  · rw [List.nodup_cons]
    constructor
    · simp only [List.mem_append, List.mem_singleton, List.not_mem_nil, or_false]
      rintro (hl | hl)
      · obtain ⟨i, hi1, _, hi3⟩ := rbody _ hl
        have : NL = i := labelName_injective hi3
        omega
      · have : NL = NL + 1 := labelName_injective hl
        omega
    · refine nodup_append_singleton nbody ?_
      intro hl
      obtain ⟨i, hi1, _, hi3⟩ := rbody _ hl
      have : NL + 1 = i := labelName_injective hi3
      omega
  · intro t ht
    simp only [List.mem_cons, List.mem_append, List.mem_singleton, List.not_mem_nil, or_false] at ht ⊢
    rcases ht with rfl | ht | rfl
    · exact Or.inr (Or.inr rfl)
    · exact Or.inr (Or.inl (tbody t ht))
    · exact Or.inl rfl

/-- Label shape of the else-less `if` lowering: the body labels, then the
else label `_l NL`; the jumps are the `JumpIfFalse` to the else label and
the body's jumps. -/
theorem if_shape {NL NL4 : Nat} {LB TB : List String}
    (hb : NL + 1 ≤ NL4)
    (rbody : ∀ l ∈ LB, ∃ i, NL + 1 ≤ i ∧ i < NL4 ∧ l = labelName i)
    (nbody : LB.Nodup)
    (tbody : ∀ t ∈ TB, t ∈ LB) :
    (∀ l ∈ LB ++ [labelName NL], ∃ i, NL ≤ i ∧ i < NL4 ∧ l = labelName i) ∧
    (LB ++ [labelName NL]).Nodup ∧
    (∀ t ∈ labelName NL :: TB, t ∈ LB ++ [labelName NL]) := by
  refine ⟨?_, ?_, ?_⟩
  · intro l hl
    simp only [List.mem_append, List.mem_singleton, List.not_mem_nil, or_false] at hl
    rcases hl with hl | rfl
    · obtain ⟨i, hi1, hi2, hi3⟩ := rbody l hl
      exact ⟨i, by omega, hi2, hi3⟩
    · exact ⟨NL, le_refl NL, by omega, rfl⟩
  · refine nodup_append_singleton nbody ?_
    intro hl
    obtain ⟨i, hi1, _, hi3⟩ := rbody _ hl
    have : NL = i := labelName_injective hi3
    omega
  · intro t ht
    simp only [List.mem_cons] at ht
    simp only [List.mem_append, List.mem_singleton, List.not_mem_nil, or_false]
    rcases ht with rfl | ht
    · exact Or.inr rfl
    · exact Or.inl (tbody t ht)

/-- Label shape of the `if`-with-else lowering: then-labels, the else
label `_l NL`, else-labels, the end label `_l N4` (allocated after the
then branch); jumps: `JumpIfFalse` to the else label, then-jumps, the
`Jump` to the end label, else-jumps. -/
theorem ifelse_shape {NL N4 N6 : Nat} {LB1 TB1 LB2 TB2 : List String}
    (h4 : NL + 1 ≤ N4) (h6 : N4 + 1 ≤ N6)
    (r1 : ∀ l ∈ LB1, ∃ i, NL + 1 ≤ i ∧ i < N4 ∧ l = labelName i)
    (n1 : LB1.Nodup) (t1 : ∀ t ∈ TB1, t ∈ LB1)
    (r2 : ∀ l ∈ LB2, ∃ i, N4 + 1 ≤ i ∧ i < N6 ∧ l = labelName i)
    (n2 : LB2.Nodup) (t2 : ∀ t ∈ TB2, t ∈ LB2) :
    (∀ l ∈ LB1 ++ (labelName NL :: (LB2 ++ [labelName N4])),
        ∃ i, NL ≤ i ∧ i < N6 ∧ l = labelName i) ∧
    (LB1 ++ (labelName NL :: (LB2 ++ [labelName N4]))).Nodup ∧
    (∀ t ∈ labelName NL :: (TB1 ++ (labelName N4 :: TB2)),
        t ∈ LB1 ++ (labelName NL :: (LB2 ++ [labelName N4]))) := by
  have key : ∀ l ∈ LB1 ++ (labelName NL :: (LB2 ++ [labelName N4])),
      ∃ i, (NL + 1 ≤ i ∧ i < N4 ∨ i = NL ∨ N4 + 1 ≤ i ∧ i < N6 ∨ i = N4) ∧ l = labelName i := by
    intro l hl
    simp only [List.mem_append, List.mem_cons, List.mem_singleton, List.not_mem_nil,
      or_false] at hl
    rcases hl with hl | rfl | hl | rfl
    · obtain ⟨i, hi1, hi2, hi3⟩ := r1 l hl
      exact ⟨i, Or.inl ⟨hi1, hi2⟩, hi3⟩
    · exact ⟨NL, Or.inr (Or.inl rfl), rfl⟩
    · obtain ⟨i, hi1, hi2, hi3⟩ := r2 l hl
      exact ⟨i, Or.inr (Or.inr (Or.inl ⟨hi1, hi2⟩)), hi3⟩
    · exact ⟨N4, Or.inr (Or.inr (Or.inr rfl)), rfl⟩
  refine ⟨?_, ?_, ?_⟩
  · intro l hl
    obtain ⟨i, hi, hl⟩ := key l hl
    exact ⟨i, by omega, by omega, hl⟩
  · rw [List.nodup_append]
    refine ⟨n1, ?_, ?_⟩
    · rw [List.nodup_cons]
      constructor
      · simp only [List.mem_append, List.mem_singleton, List.not_mem_nil, or_false]
        rintro (hl | hl)
        · obtain ⟨i, hi1, _, hi3⟩ := r2 _ hl
          have : NL = i := labelName_injective hi3
          omega
        · have : NL = N4 := labelName_injective hl
          omega
      · refine nodup_append_singleton n2 ?_
        intro hl
        obtain ⟨i, hi1, _, hi3⟩ := r2 _ hl
        have : N4 = i := labelName_injective hi3
        omega
    · rw [List.disjoint_left]
      intro a ha ha2
      obtain ⟨i, hi1, _, hi3⟩ := r1 a ha
      simp only [List.mem_cons, List.mem_append, List.mem_singleton, List.not_mem_nil,
        or_false] at ha2
      rcases ha2 with rfl | ha2 | rfl
      · have : i = NL := labelName_injective hi3.symm
        omega
      · obtain ⟨j, hj1, _, hj3⟩ := r2 a ha2
        have : i = j := labelName_injective (hi3.symm.trans hj3)
        omega
      · have : i = N4 := labelName_injective hi3.symm
        omega
  · intro t ht
    simp only [List.mem_cons, List.mem_append, List.mem_singleton, List.not_mem_nil,
      or_false] at ht ⊢
    rcases ht with rfl | ht | rfl | ht
    · exact Or.inr (Or.inl rfl)
    · exact Or.inl (t1 t ht)
    · exact Or.inr (Or.inr (Or.inr rfl))
    · exact Or.inr (Or.inr (Or.inl (t2 t ht)))

/-- Label shape of the `switch` lowering: the branch-phase labels (branch
labels interleaved with body labels), then the end label `_l (NL+k)`;
jumps: the check-phase jumps (targeting exactly the branch labels, which
the branch phase emits), and the branch-phase jumps (each either the end
label or a branch-phase label). -/
theorem switch_shape {NL k NLf : Nat} {LB TB CHT : List String}
    (hk : NL + k + 1 ≤ NLf)
    (rB : ∀ l ∈ LB, ∃ i, ((NL ≤ i ∧ i < NL + k) ∨ (NL + k + 1 ≤ i ∧ i < NLf)) ∧ l = labelName i)
    (nB : LB.Nodup)
    (cov : ∀ l ∈ (List.range' NL k).map labelName, l ∈ LB)
    (tB : ∀ t ∈ TB, t = labelName (NL + k) ∨ t ∈ LB)
    (hCHT : ∀ t ∈ CHT, t ∈ (List.range' NL k).map labelName) :
    (∀ l ∈ LB ++ [labelName (NL + k)], ∃ i, NL ≤ i ∧ i < NLf ∧ l = labelName i) ∧
    (LB ++ [labelName (NL + k)]).Nodup ∧
    (∀ t ∈ CHT ++ TB, t ∈ LB ++ [labelName (NL + k)]) := by
  refine ⟨?_, ?_, ?_⟩
  · intro l hl
    simp only [List.mem_append, List.mem_singleton, List.not_mem_nil, or_false] at hl
    rcases hl with hl | rfl
    · obtain ⟨i, hi, hi3⟩ := rB l hl
      exact ⟨i, by omega, by omega, hi3⟩
    · exact ⟨NL + k, by omega, by omega, rfl⟩
  · refine nodup_append_singleton nB ?_
    intro hl
    obtain ⟨i, hi, hi3⟩ := rB _ hl
    have : NL + k = i := labelName_injective hi3
    omega
  · intro t ht
    simp only [List.mem_append, List.mem_singleton, List.not_mem_nil, or_false] at ht ⊢
    rcases ht with ht | ht
    · exact Or.inl (cov t (hCHT t ht))
    · rcases tB t ht with rfl | ht2
      · exact Or.inr rfl
      · exact Or.inl ht2

theorem labelsOf_nil : labelsOf [] = [] := rfl

theorem jumpTargetsOf_nil : jumpTargetsOf [] = [] := rfl

theorem labelsOf_cons (i : Instr) (rest : List Instr) :
    labelsOf (i :: rest) =
      (match i.op with | .ILabel l => [l] | _ => []) ++ labelsOf rest := by
  rw [labelsOf, labelsOf, List.filterMap_cons]
  cases i.op <;> rfl

theorem jumpTargetsOf_cons (i : Instr) (rest : List Instr) :
    jumpTargetsOf (i :: rest) =
      (match i.op with
       | .IJump l => [l] | .IJumpIfFalse l => [l]
       | .IJumpIfStructure _ l => [l] | .IJumpIfTuple _ l => [l]
       | _ => []) ++ jumpTargetsOf rest := by
  rw [jumpTargetsOf, jumpTargetsOf, List.filterMap_cons]
  cases i.op <;> rfl

mutual

theorem compileStatement_ws (env : Env) (s : Statement) (st st' : CState)
    (h : compileStatement env s st = .ok st') :
    st.nextLabel ≤ st'.nextLabel ∧
      ∃ d, st'.code = st.code ++ d ∧ WellScoped st.nextLabel st'.nextLabel d := by
  cases s with
  | N_StmtBlock sp ep statements =>
      rw [compileStatement] at h
      exact compileStatements_ws env statements st st' h
  | N_StmtReturn sp ep result =>
      rw [compileStatement] at h
      obtain ⟨hnl, hnv, d, hcode, hlab, htar⟩ := compileExpression_ok env result st st' h
      exact ⟨le_of_eq hnl.symm, d, hcode, WellScoped.of_no_labels hlab htar⟩
  | N_StmtAssignVariable sp ep x value =>
      rw [compileStatement] at h
      split at h
      · exact absurd h (by simp)
      rename_i st1 hv
      obtain ⟨hnl1, hnv1, d0, hcode0, hlab0, htar0⟩ := compileExpression_ok env value st st1 hv
      injection h with h
      subst h
      refine ⟨by simp [produce, hnl1], d0 ++ [⟨sp, ep, .ISetVariable x⟩], ?_, ?_⟩
      · simp [produce, hcode0]
      · refine WellScoped.of_no_labels ?_ ?_
        · rw [labelsOf_append, hlab0]; rfl
        · rw [jumpTargetsOf_append, htar0]; rfl
  | N_StmtAssignTuple sp ep xs value =>
      rw [compileStatement] at h
      split at h
      · exact absurd h (by simp)
      rename_i st1 hv
      obtain ⟨hnl1, hnv1, d0, hcode0, hlab0, htar0⟩ := compileExpression_ok env value st st1 hv
      simp only [produce] at h
      injection h with h
      subst h
      obtain ⟨hA1, hA2⟩ := assignTupleComponents_no_labels sp ep xs 0
      refine ⟨by simp [hnl1],
        d0 ++ ([⟨sp, ep, .ITypeCheck (.TypeTuple (xs.map fun _ => .TypeAny))⟩] ++
          (assignTupleComponents sp ep 0 xs ++ [⟨sp, ep, .IPop⟩])), ?_, ?_⟩
      · simp [hcode0, List.append_assoc]
      · refine WellScoped.of_no_labels ?_ ?_
        · rw [labelsOf_append, hlab0, labelsOf_append, labelsOf_append, hA1]; rfl
        · rw [jumpTargetsOf_append, htar0, jumpTargetsOf_append, jumpTargetsOf_append, hA2]; rfl
  | N_StmtProcedureCall sp ep procedureName args =>
      rw [compileStatement] at h
      split at h
      · exact absurd h (by simp)
      rename_i st1 hargs
      obtain ⟨hnl1, hnv1, d0, hcode0, hlab0, htar0⟩ := compileExpressions_ok env args st st1 hargs
      by_cases hp : env.primitivesIsProcedure procedureName = true
      · rw [if_pos hp] at h
        injection h with h
        subst h
        refine ⟨by simp [produce, hnl1],
          d0 ++ [⟨sp, ep, .IPrimitiveCall procedureName args.length⟩], ?_, ?_⟩
        · simp [produce, hcode0]
        · refine WellScoped.of_no_labels ?_ ?_
          · rw [labelsOf_append, hlab0]; rfl
          · rw [jumpTargetsOf_append, htar0]; rfl
      · rw [if_neg hp] at h
        exact absurd h (by simp)
  | N_StmtIf sp ep condition thenBlock elseBlock =>
      cases elseBlock with
      | none =>
          rw [compileStatement] at h
          split at h
          · exact absurd h (by simp)
          rename_i st1 hcond
          obtain ⟨hnl1, hnv1, d0, hcode0, hlab0, htar0⟩ :=
            compileExpression_ok env condition st st1 hcond
          simp only [produce, freshLabel] at h
          simp only [hnl1, hnv1, hcode0] at h
          split at h
          · exact absurd h (by simp)
          rename_i st4 hthen
          obtain ⟨hb4, dth, hcode4, wsth⟩ := compileStatement_ws env thenBlock _ st4 hthen
          simp only [] at hb4 hcode4 wsth
          obtain ⟨rth, nth, tth⟩ := wsth
          injection h with h
          subst h
          refine ⟨show st.nextLabel ≤ st4.nextLabel by omega,
            d0 ++ ([⟨condition.startPos, condition.endPos,
                .ITypeCheck (.TypeStructure (env.i18n "TYPE:Bool") [])⟩] ++
              ([⟨sp, ep, .IJumpIfFalse (labelName st.nextLabel)⟩] ++
                (dth ++ [⟨sp, ep, .ILabel (labelName st.nextLabel)⟩]))), ?_, ?_⟩
          · show st4.code ++ _ = _
            simp [hcode4, List.append_assoc]
          · show WellScoped st.nextLabel st4.nextLabel _
            rw [WellScoped]
            simp only [labelsOf_append, labelsOf_cons, labelsOf_nil, hlab0,
              jumpTargetsOf_append, jumpTargetsOf_cons, jumpTargetsOf_nil, htar0,
              List.nil_append, List.append_nil, List.singleton_append]
            exact if_shape hb4 rth nth tth
      | some elseB =>
          rw [compileStatement] at h
          split at h
          · exact absurd h (by simp)
          rename_i st1 hcond
          obtain ⟨hnl1, hnv1, d0, hcode0, hlab0, htar0⟩ :=
            compileExpression_ok env condition st st1 hcond
          simp only [produce, produceList, freshLabel, List.map_cons, List.map_nil] at h
          simp only [hnl1, hnv1, hcode0] at h
          split at h
          · exact absurd h (by simp)
          rename_i st4 hthen
          obtain ⟨hb4, dth, hcode4, wsth⟩ := compileStatement_ws env thenBlock _ st4 hthen
          simp only [] at hb4 hcode4 wsth
          obtain ⟨rth, nth, tth⟩ := wsth
          split at h
          · exact absurd h (by simp)
          rename_i st6 helse
          obtain ⟨hb6, dels, hcode6, wsel⟩ := compileStatement_ws env elseB _ st6 helse
          simp only [] at hb6 hcode6 wsel
          obtain ⟨rel, nel, tel⟩ := wsel
          injection h with h
          subst h
          refine ⟨show st.nextLabel ≤ st6.nextLabel by omega,
            d0 ++ ([⟨condition.startPos, condition.endPos,
                .ITypeCheck (.TypeStructure (env.i18n "TYPE:Bool") [])⟩] ++
              ([⟨sp, ep, .IJumpIfFalse (labelName st.nextLabel)⟩] ++
                (dth ++ ([⟨sp, ep, .IJump (labelName st4.nextLabel)⟩,
                    ⟨sp, ep, .ILabel (labelName st.nextLabel)⟩] ++
                  (dels ++ [⟨sp, ep, .ILabel (labelName st4.nextLabel)⟩]))))), ?_, ?_⟩
          · show st6.code ++ _ = _
            simp [hcode6, hcode4, List.append_assoc]
          · show WellScoped st.nextLabel st6.nextLabel _
            rw [WellScoped]
            simp only [labelsOf_append, labelsOf_cons, labelsOf_nil, hlab0,
              jumpTargetsOf_append, jumpTargetsOf_cons, jumpTargetsOf_nil, htar0,
              List.nil_append, List.append_nil, List.singleton_append]
            exact ifelse_shape hb4 hb6 rth nth tth rel nel tel
  | N_StmtRepeat sp ep times body =>
      rw [compileStatement] at h
      split at h
      · exact absurd h (by simp)
      rename_i st1 htimes
      obtain ⟨hnl1, hnv1, d0, hcode0, hlab0, htar0⟩ :=
        compileExpression_ok env times st st1 htimes
      simp only [produce, produceList, freshLabel, List.map_cons, List.map_nil] at h
      simp only [hnl1, hnv1, hcode0] at h
      split at h
      · exact absurd h (by simp)
      rename_i st4 hbody
      obtain ⟨hb4, dbd, hcode4, wsbd⟩ := compileStatement_ws env body _ st4 hbody
      simp only [] at hb4 hcode4 wsbd
      obtain ⟨rbd, nbd, tbd⟩ := wsbd
      injection h with h
      subst h
      refine ⟨show st.nextLabel ≤ st4.nextLabel by omega,
        d0 ++ ([⟨times.startPos, times.endPos, .ITypeCheck .TypeInteger⟩] ++
          ([⟨sp, ep, .ILabel (labelName st.nextLabel)⟩, ⟨sp, ep, .IDup⟩,
              ⟨sp, ep, .IPushInteger 0⟩, ⟨sp, ep, .IPrimitiveCall ">" 2⟩,
              ⟨sp, ep, .IJumpIfFalse (labelName (st.nextLabel + 1))⟩] ++
            (dbd ++ [⟨sp, ep, .IPushInteger 1⟩, ⟨sp, ep, .IPrimitiveCall "-" 2⟩,
              ⟨sp, ep, .IJump (labelName st.nextLabel)⟩,
              ⟨sp, ep, .ILabel (labelName (st.nextLabel + 1))⟩, ⟨sp, ep, .IPop⟩]))), ?_, ?_⟩
      · show st4.code ++ _ = _
        simp [hcode4, List.append_assoc]
      · show WellScoped st.nextLabel st4.nextLabel _
        rw [WellScoped]
        simp only [labelsOf_append, labelsOf_cons, labelsOf_nil, hlab0,
          jumpTargetsOf_append, jumpTargetsOf_cons, jumpTargetsOf_nil, htar0,
          List.nil_append, List.append_nil, List.singleton_append]
        exact loop_shape hb4 rbd nbd tbd
  | N_StmtWhile sp ep condition body =>
      rw [compileStatement] at h
      simp only [produce, produceList, freshLabel, List.map_cons, List.map_nil] at h
      split at h
      · exact absurd h (by simp)
      rename_i st2 hcond
      obtain ⟨hnl2, hnv2, d0, hcode0, hlab0, htar0⟩ :=
        compileExpression_ok env condition _ st2 hcond
      simp only [] at hnl2 hnv2 hcode0
      simp only [hnl2, hnv2, hcode0] at h
      split at h
      · exact absurd h (by simp)
      rename_i st4 hbody
      obtain ⟨hb4, dbd, hcode4, wsbd⟩ := compileStatement_ws env body _ st4 hbody
      simp only [] at hb4 hcode4 wsbd
      obtain ⟨rbd, nbd, tbd⟩ := wsbd
      injection h with h
      subst h
      refine ⟨show st.nextLabel ≤ st4.nextLabel by omega,
        [⟨sp, ep, .ILabel (labelName st.nextLabel)⟩] ++
          (d0 ++ ([⟨sp, ep, .ITypeCheck (.TypeStructure (env.i18n "TYPE:Bool") [])⟩,
              ⟨sp, ep, .IJumpIfFalse (labelName (st.nextLabel + 1))⟩] ++
            (dbd ++ [⟨sp, ep, .IJump (labelName st.nextLabel)⟩,
              ⟨sp, ep, .ILabel (labelName (st.nextLabel + 1))⟩]))), ?_, ?_⟩
      · show st4.code ++ _ = _
        simp [hcode4, List.append_assoc]
      · show WellScoped st.nextLabel st4.nextLabel _
        rw [WellScoped]
        simp only [labelsOf_append, labelsOf_cons, labelsOf_nil, hlab0,
          jumpTargetsOf_append, jumpTargetsOf_cons, jumpTargetsOf_nil, htar0,
          List.nil_append, List.append_nil, List.singleton_append]
        exact loop_shape hb4 rbd nbd tbd
  | N_StmtForeach sp ep index range body =>
      rw [compileStatement] at h
      simp only [produce, produceList, freshLabel, freshVariable,
        List.map_cons, List.map_nil] at h
      split at h
      · exact absurd h (by simp)
      rename_i st1 hrange
      obtain ⟨hnl1, hnv1, d0, hcode0, hlab0, htar0⟩ :=
        compileExpression_ok env range _ st1 hrange
      simp only [] at hnl1 hnv1 hcode0
      simp only [hnl1, hnv1, hcode0] at h
      split at h
      · exact absurd h (by simp)
      rename_i st4 hbody
      obtain ⟨hb4, dbd, hcode4, wsbd⟩ := compileStatement_ws env body _ st4 hbody
      simp only [] at hb4 hcode4 wsbd
      obtain ⟨rbd, nbd, tbd⟩ := wsbd
      injection h with h
      subst h
      refine ⟨show st.nextLabel ≤ st4.nextLabel by omega,
        d0 ++ ([⟨range.startPos, range.endPos, .ITypeCheck (.TypeList .TypeAny)⟩,
            ⟨range.startPos, range.endPos, .ISetVariable (varName st.nextVariable)⟩,
            ⟨range.startPos, range.endPos, .IPushVariable (varName st.nextVariable)⟩,
            ⟨range.startPos, range.endPos, .IPrimitiveCall "_unsafeListLength" 1⟩,
            ⟨range.startPos, range.endPos, .ISetVariable (varName (st.nextVariable + 1 + 1))⟩] ++
          ([⟨sp, ep, .IPushInteger 0⟩,
              ⟨sp, ep, .ISetVariable (varName (st.nextVariable + 1))⟩,
              ⟨sp, ep, .ILabel (labelName st.nextLabel)⟩,
              ⟨sp, ep, .IPushVariable (varName (st.nextVariable + 1))⟩,
              ⟨sp, ep, .IPushVariable (varName (st.nextVariable + 1 + 1))⟩,
              ⟨sp, ep, .IPrimitiveCall "<" 2⟩,
              ⟨sp, ep, .IJumpIfFalse (labelName (st.nextLabel + 1))⟩,
              ⟨sp, ep, .IPushVariable (varName st.nextVariable)⟩,
              ⟨sp, ep, .IPushVariable (varName (st.nextVariable + 1))⟩,
              ⟨sp, ep, .IPrimitiveCall "_unsafeListNth" 2⟩,
              ⟨sp, ep, .ISetVariable index⟩] ++
            (dbd ++ [⟨sp, ep, .IPushVariable (varName (st.nextVariable + 1))⟩,
              ⟨sp, ep, .IPushInteger 1⟩, ⟨sp, ep, .IPrimitiveCall "+" 2⟩,
              ⟨sp, ep, .ISetVariable (varName (st.nextVariable + 1))⟩,
              ⟨sp, ep, .IJump (labelName st.nextLabel)⟩,
              ⟨sp, ep, .ILabel (labelName (st.nextLabel + 1))⟩,
              ⟨sp, ep, .IUnsetVariable (varName st.nextVariable)⟩,
              ⟨sp, ep, .IUnsetVariable (varName (st.nextVariable + 1 + 1))⟩,
              ⟨sp, ep, .IUnsetVariable (varName (st.nextVariable + 1))⟩,
              ⟨sp, ep, .IUnsetVariable index⟩]))), ?_, ?_⟩
      · show st4.code ++ _ = _
        simp [hcode4, List.append_assoc]
      · show WellScoped st.nextLabel st4.nextLabel _
        rw [WellScoped]
        simp only [labelsOf_append, labelsOf_cons, labelsOf_nil, hlab0,
          jumpTargetsOf_append, jumpTargetsOf_cons, jumpTargetsOf_nil, htar0,
          List.nil_append, List.append_nil, List.singleton_append]
        exact loop_shape hb4 rbd nbd tbd
  | N_StmtSwitch sp ep subject branches =>
      rw [compileStatement] at h
      split at h
      · exact absurd h (by simp)
      rename_i st1 hsubj
      obtain ⟨hnl1, hnv1, d0, hcode0, hlab0, htar0⟩ :=
        compileExpression_ok env subject st st1 hsubj
      rw [CState.eq_of st1 hcode0 hnl1 hnv1] at h
      obtain ⟨dch, hchecks, hlabch, htarch⟩ :=
        compileSwitchChecks_spec env branches (st.code ++ d0) st.nextLabel st.nextVariable
      rw [hchecks] at h
      simp only [produceList, freshLabel, List.map_cons, List.map_nil] at h
      split at h
      · exact absurd h (by simp)
      rename_i st3 hbr
      have hj : st.nextLabel + branches.length ≤ st.nextLabel + branches.length + 1 :=
        Nat.le_succ _
      obtain ⟨hb3, dbr, hcode3, rbr, nbr, covbr, tbr⟩ :=
        compileSwitchBranches_ws env branches st.nextLabel
          (labelName (st.nextLabel + branches.length)) _ st3 hj hbr
      simp only [] at hb3 hcode3 rbr nbr covbr tbr
      injection h with h
      subst h
      refine ⟨show st.nextLabel ≤ st3.nextLabel by omega,
        d0 ++ (dch ++
          ([⟨sp, ep, .IPushString (env.i18n "errmsg:switch-does-not-match")⟩,
              ⟨sp, ep, .IPrimitiveCall "_FAIL" 1⟩] ++
            (dbr ++ [⟨sp, ep, .ILabel (labelName (st.nextLabel + branches.length))⟩]))), ?_, ?_⟩
      · show st3.code ++ _ = _
        simp [hcode3, List.append_assoc]
      · show WellScoped st.nextLabel st3.nextLabel _
        rw [WellScoped]
        simp only [labelsOf_append, labelsOf_cons, labelsOf_nil, hlab0, hlabch,
          jumpTargetsOf_append, jumpTargetsOf_cons, jumpTargetsOf_nil, htar0, htarch,
          List.nil_append, List.append_nil, List.singleton_append]
        exact switch_shape hb3 rbr nbr covbr tbr (fun t ht => ht)

theorem compileStatements_ws (env : Env) (ss : List Statement) (st st' : CState)
    (h : compileStatements env ss st = .ok st') :
    st.nextLabel ≤ st'.nextLabel ∧
      ∃ d, st'.code = st.code ++ d ∧ WellScoped st.nextLabel st'.nextLabel d := by
  cases ss with
  | nil =>
      rw [compileStatements] at h
      injection h with h
      subst h
      exact ⟨le_refl _, [], by simp, WellScoped.of_no_labels rfl rfl⟩
  | cons s ss =>
      rw [compileStatements] at h
      split at h
      · exact absurd h (by simp)
      rename_i st1 hs
      obtain ⟨hle1, d1, hcode1, ws1⟩ := compileStatement_ws env s st st1 hs
      obtain ⟨hle2, d2, hcode2, ws2⟩ := compileStatements_ws env ss st1 st' h
      refine ⟨le_trans hle1 hle2, d1 ++ d2, ?_, ?_⟩
      · rw [hcode2, hcode1, List.append_assoc]
      · exact WellScoped.append ws1 ws2 hle1 hle2

theorem compileSwitchBranches_ws (env : Env) (bs : List SwitchBranch) (j : Nat)
    (lEnd : String) (st st' : CState)
    (hj : j + bs.length ≤ st.nextLabel)
    (h : compileSwitchBranches env bs ((List.range' j bs.length).map labelName) lEnd st
          = .ok st') :
    st.nextLabel ≤ st'.nextLabel ∧ ∃ d, st'.code = st.code ++ d ∧
      (∀ l ∈ labelsOf d, ∃ i,
        ((j ≤ i ∧ i < j + bs.length) ∨ (st.nextLabel ≤ i ∧ i < st'.nextLabel)) ∧
        l = labelName i) ∧
      (labelsOf d).Nodup ∧
      (∀ l ∈ (List.range' j bs.length).map labelName, l ∈ labelsOf d) ∧
      (∀ t ∈ jumpTargetsOf d, t = lEnd ∨ t ∈ labelsOf d) := by
  cases bs with
  | nil =>
      rw [compileSwitchBranches] at h
      injection h with h
      subst h
      refine ⟨le_refl _, [], by simp, ?_, ?_, ?_, ?_⟩
      · intro l hl; exact absurd hl (by simp [labelsOf])
      · exact List.nodup_nil
      · intro l hl; exact absurd hl (by simp)
      · intro t ht; exact absurd ht (by simp [jumpTargetsOf])
  | cons b bs =>
      obtain ⟨bsp, bep, pattern, body⟩ := b
      rw [List.length_cons] at hj
      simp only [List.length_cons, List.range'_succ, List.map_cons]
      rw [List.length_cons, List.range'_succ, List.map_cons, compileSwitchBranches] at h
      simp only [produce] at h
      split at h
      · exact absurd h (by simp)
      rename_i st4 hbody
      obtain ⟨hb4, dbd, hcode4, wsbd⟩ := compileStatement_ws env body _ st4 hbody
      simp only [] at hb4 hcode4 wsbd
      obtain ⟨rbd, nbd, tbd⟩ := wsbd
      have hj' : (j + 1) + bs.length ≤ st4.nextLabel := by omega
      obtain ⟨hb', dr, hcoder, rr, nr, covr, tr⟩ :=
        compileSwitchBranches_ws env bs (j + 1) lEnd
          ⟨st4.code ++ patternUnbind pattern ++ [⟨bsp, bep, .IJump lEnd⟩],
            st4.nextLabel, st4.nextVariable⟩ st' hj' h
      simp only [] at hb' hcoder rr nr covr tr
      refine ⟨by omega,
        [⟨bsp, bep, .ILabel (labelName j)⟩] ++
          (patternBind env pattern ++ ([⟨bsp, bep, .IPop⟩] ++
            (dbd ++ (patternUnbind pattern ++ ([⟨bsp, bep, .IJump lEnd⟩] ++ dr))))), ?_, ?_, ?_, ?_, ?_⟩
      · rw [hcoder, hcode4]
        simp [List.append_assoc]
      · intro l hl
        rw [labelsOf_append, labelsOf_cons, labelsOf_nil, labelsOf_append,
          (patternBind_no_labels env pattern).1, labelsOf_append, labelsOf_cons,
          labelsOf_nil, labelsOf_append, labelsOf_append,
          (patternUnbind_no_labels pattern).1, labelsOf_append, labelsOf_cons,
          labelsOf_nil] at hl
        simp only [List.nil_append, List.append_nil, List.singleton_append, List.mem_cons,
          List.mem_append, List.not_mem_nil, or_false] at hl
        rcases hl with rfl | hl | hl
        · exact ⟨j, Or.inl ⟨le_refl j, by omega⟩, rfl⟩
        · obtain ⟨i, hi1, hi2, hi3⟩ := rbd l hl
          exact ⟨i, Or.inr ⟨by omega, by omega⟩, hi3⟩
        · obtain ⟨i, hi, hi3⟩ := rr l hl
          rcases hi with ⟨hi1, hi2⟩ | ⟨hi1, hi2⟩
          · exact ⟨i, Or.inl ⟨by omega, by omega⟩, hi3⟩
          · exact ⟨i, Or.inr ⟨by omega, by omega⟩, hi3⟩
      · rw [labelsOf_append, labelsOf_cons, labelsOf_nil, labelsOf_append,
          (patternBind_no_labels env pattern).1, labelsOf_append, labelsOf_cons,
          labelsOf_nil, labelsOf_append, labelsOf_append,
          (patternUnbind_no_labels pattern).1, labelsOf_append, labelsOf_cons,
          labelsOf_nil]
        simp only [List.nil_append, List.append_nil, List.singleton_append]
        rw [List.nodup_cons]
        constructor
        · simp only [List.mem_append]
          rintro (hl | hl)
          · obtain ⟨i, hi1, _, hi3⟩ := rbd _ hl
            have : j = i := labelName_injective hi3
            omega
          · obtain ⟨i, hi, hi3⟩ := rr _ hl
            have : j = i := labelName_injective hi3
            rcases hi with ⟨hi1, _⟩ | ⟨hi1, _⟩ <;> omega
        · rw [List.nodup_append]
          refine ⟨nbd, nr, ?_⟩
          rw [List.disjoint_left]
          intro a ha ha2
          obtain ⟨i, hi1, hi2, hi3⟩ := rbd a ha
          obtain ⟨i2, hi4, hi6⟩ := rr a ha2
          have : i = i2 := labelName_injective (hi3.symm.trans hi6)
          rcases hi4 with ⟨hi4, hi5⟩ | ⟨hi4, hi5⟩ <;> omega
      · intro l hl
        rw [labelsOf_append, labelsOf_cons, labelsOf_nil, labelsOf_append,
          (patternBind_no_labels env pattern).1, labelsOf_append, labelsOf_cons,
          labelsOf_nil, labelsOf_append, labelsOf_append,
          (patternUnbind_no_labels pattern).1, labelsOf_append, labelsOf_cons,
          labelsOf_nil]
        simp only [List.nil_append, List.append_nil, List.singleton_append, List.mem_cons,
          List.mem_append, List.not_mem_nil, or_false]
        simp only [List.map_cons, List.mem_cons] at hl
        rcases hl with rfl | hl
        · exact Or.inl rfl
        · exact Or.inr (Or.inr (covr l hl))
      · intro t ht
        rw [jumpTargetsOf_append, jumpTargetsOf_cons, jumpTargetsOf_nil,
          jumpTargetsOf_append, (patternBind_no_labels env pattern).2,
          jumpTargetsOf_append, jumpTargetsOf_cons, jumpTargetsOf_nil,
          jumpTargetsOf_append, jumpTargetsOf_append,
          (patternUnbind_no_labels pattern).2, jumpTargetsOf_append,
          jumpTargetsOf_cons, jumpTargetsOf_nil] at ht
        simp only [List.nil_append, List.append_nil, List.singleton_append, List.mem_cons,
          List.mem_append, List.not_mem_nil, or_false] at ht
        rw [labelsOf_append, labelsOf_cons, labelsOf_nil, labelsOf_append,
          (patternBind_no_labels env pattern).1, labelsOf_append, labelsOf_cons,
          labelsOf_nil, labelsOf_append, labelsOf_append,
          (patternUnbind_no_labels pattern).1, labelsOf_append, labelsOf_cons,
          labelsOf_nil]
        simp only [List.nil_append, List.append_nil, List.singleton_append, List.mem_cons,
          List.mem_append, List.not_mem_nil, or_false]
        rcases ht with ht | rfl | ht
        · exact Or.inr (Or.inr (Or.inl (tbd t ht)))
        · exact Or.inl rfl
        · rcases tr t ht with rfl | ht2
          · exact Or.inl rfl
          · exact Or.inr (Or.inr (Or.inr ht2))

end

theorem compileProgram_ws (env : Env) (sp ep : SrcPos) (body : Statement)
    (st st' : CState) (h : compileProgram env sp ep body st = .ok st') :
    st.nextLabel ≤ st'.nextLabel ∧
      ∃ d, st'.code = st.code ++ d ∧ WellScoped st.nextLabel st'.nextLabel d := by
  rw [compileProgram] at h
  split at h
  · exact absurd h (by simp)
  rename_i st1 hs
  obtain ⟨hle, d, hcode, ws⟩ := compileStatement_ws env body st st1 hs
  injection h with h
  subst h
  refine ⟨by simp [produce, hle], d ++ [⟨sp, ep, .IReturn⟩], ?_, ?_⟩
  · simp [produce, hcode]
  · show WellScoped st.nextLabel st1.nextLabel _
    exact WellScoped.append ws (WellScoped.of_no_labels rfl rfl) hle (le_refl _)

theorem compileDefinitionsEntry_ws (env : Env) :
    ∀ (ds : List Definition) (st st' : CState),
      compileDefinitionsEntry env ds st = .ok st' →
      st.nextLabel ≤ st'.nextLabel ∧
        ∃ d, st'.code = st.code ++ d ∧ WellScoped st.nextLabel st'.nextLabel d := by
  intro ds
  induction ds with
  | nil =>
      intro st st' h
      rw [compileDefinitionsEntry] at h
      injection h with h
      subst h
      exact ⟨le_refl _, [], by simp, WellScoped.of_no_labels rfl rfl⟩
  | cons d ds ih =>
      intro st st' h
      cases d with
      | N_DefProgram sp ep body =>
          rw [compileDefinitionsEntry] at h
          split at h
          · exact absurd h (by simp)
          rename_i st1 hp
          obtain ⟨hle1, d1, hcode1, ws1⟩ := compileProgram_ws env sp ep body st st1 hp
          obtain ⟨hle2, d2, hcode2, ws2⟩ := ih st1 st' h
          refine ⟨le_trans hle1 hle2, d1 ++ d2, ?_, ?_⟩
          · rw [hcode2, hcode1, List.append_assoc]
          · exact WellScoped.append ws1 ws2 hle1 hle2
      | N_DefInteractiveProgram sp ep =>
          rw [compileDefinitionsEntry] at h
          simp only [compileInteractiveProgram] at h
          exact ih st st' h
      | N_DefProcedure sp ep =>
          rw [compileDefinitionsEntry] at h
          exact ih st st' h
      | N_DefFunction sp ep =>
          rw [compileDefinitionsEntry] at h
          exact ih st st' h
      | N_DefType sp ep =>
          rw [compileDefinitionsEntry] at h
          exact ih st st' h

/-- C2.  Label well-formedness: for every AST accepted by `compile`,
every label name appears exactly once among the `Label` instructions of
the emitted code, and every target of a `Jump`, `JumpIfFalse`,
`JumpIfStructure` or `JumpIfTuple` instruction names a `Label` of the
same code. -/
theorem compile_label_wellformedness (env : Env) (ast : Main) (code : List Instr)
    (h : compile env ast = .ok code) :
    (labelsOf code).Nodup ∧ ∀ t ∈ jumpTargetsOf code, t ∈ labelsOf code := by
  rw [compile] at h
  cases hm : compileMain env ast newCompiler with
  | error e => rw [hm] at h; exact absurd h (by simp)
  | ok stf =>
      rw [hm] at h
      injection h with h
      subst h
      rw [compileMain] at hm
      by_cases hz : ast.definitions.length = 0
      · rw [if_pos hz] at hm
        injection hm with hm
        subst hm
        have h1 : labelsOf (produce ast.startPos ast.endPos Op.IReturn newCompiler).code = [] := rfl
        have h2 : jumpTargetsOf (produce ast.startPos ast.endPos Op.IReturn newCompiler).code = [] := rfl
        rw [h1, h2]
        exact ⟨List.nodup_nil, by simp⟩
      · rw [if_neg hz] at hm
        split at hm
        · exact absurd hm (by simp)
        rename_i st1 hentry
        rw [compileDefinitionsCallables_ok] at hm
        injection hm with hm
        subst hm
        obtain ⟨hle, d, hcode, ws⟩ :=
          compileDefinitionsEntry_ws env ast.definitions newCompiler st1 hentry
        obtain ⟨hrange, hnodup, htargets⟩ := ws
        have hd : st1.code = d := by simpa [newCompiler] using hcode
        rw [hd]
        exact ⟨hnodup, htargets⟩

theorem compile_label_wellformedness_witness :
    ∃ code, compile envA switchProg = .ok code ∧
      (labelsOf code).Nodup ∧ ∀ t ∈ jumpTargetsOf code, t ∈ labelsOf code :=
  ⟨_, rfl, compile_label_wellformedness envA switchProg _ rfl⟩

/-! ## Lowering templates (claims C3, C5, C6) -/

/-- Closed form of the check phase of `_compileStmtSwitch`: for each
branch in source order, its pattern check targeting the next consecutive
fresh label. -/
def switchChecksCode (env : Env) : List SwitchBranch → Nat → List Instr
  | [], _ => []
  | .N_SwitchBranch _ _ pattern _ :: bs, nl =>
      patternCheck env pattern (labelName nl) ++ switchChecksCode env bs (nl + 1)

theorem compileSwitchChecks_eq (env : Env) :
    ∀ (bs : List SwitchBranch) (c : List Instr) (nl nv : Nat),
      compileSwitchChecks env bs ⟨c, nl, nv⟩ =
        ((List.range' nl bs.length).map labelName,
          ⟨c ++ switchChecksCode env bs nl, nl + bs.length, nv⟩) := by
  intro bs
  induction bs with
  | nil =>
      intro c nl nv
      simp [compileSwitchChecks, switchChecksCode]
  | cons b bs ih =>
      intro c nl nv
      obtain ⟨bsp, bep, pattern, body⟩ := b
      rw [compileSwitchChecks, freshLabel]
      simp only [ih, List.length_cons, List.range'_succ, List.map_cons, switchChecksCode,
        Prod.mk.injEq, CState.mk.injEq, List.append_assoc, true_and, and_true]
      omega

/-- C6.  Repeat lowering: the emitted sequence is exactly the lowering of
the times expression, `TypeCheck(Integer)`, the loop header
`Label L_start; Dup; PushInteger 0; PrimitiveCall(">", 2);
JumpIfFalse L_end`, the body, and the decrement/loop footer
`PushInteger 1; PrimitiveCall("-", 2); Jump L_start; Label L_end; Pop`;
in particular `program { repeat 3 { } }` compiles from a fresh compiler
to exactly the claimed thirteen instructions. -/
theorem repeat_lowering :
    (∀ (env : Env) (sp ep : SrcPos) (times : Expression) (body : Statement)
        (c : List Instr) (nl nv : Nat) (dt : List Instr) (st4 : CState),
      compileExpression env times ⟨c, nl, nv⟩ = .ok ⟨c ++ dt, nl, nv⟩ →
      compileStatement env body
          ⟨c ++ dt ++ [⟨times.startPos, times.endPos, .ITypeCheck .TypeInteger⟩] ++
            [⟨sp, ep, .ILabel (labelName nl)⟩, ⟨sp, ep, .IDup⟩, ⟨sp, ep, .IPushInteger 0⟩,
             ⟨sp, ep, .IPrimitiveCall ">" 2⟩, ⟨sp, ep, .IJumpIfFalse (labelName (nl + 1))⟩],
            nl + 1 + 1, nv⟩ = .ok st4 →
      compileStatement env (.N_StmtRepeat sp ep times body) ⟨c, nl, nv⟩ =
        .ok ⟨st4.code ++ [⟨sp, ep, .IPushInteger 1⟩, ⟨sp, ep, .IPrimitiveCall "-" 2⟩,
          ⟨sp, ep, .IJump (labelName nl)⟩, ⟨sp, ep, .ILabel (labelName (nl + 1))⟩,
          ⟨sp, ep, .IPop⟩], st4.nextLabel, st4.nextVariable⟩) ∧
    (compile envA repeatProg).map (List.map Instr.op) = .ok
      [.IPushInteger 3, .ITypeCheck .TypeInteger, .ILabel "_l0", .IDup, .IPushInteger 0,
       .IPrimitiveCall ">" 2, .IJumpIfFalse "_l1", .IPushInteger 1, .IPrimitiveCall "-" 2,
       .IJump "_l0", .ILabel "_l1", .IPop, .IReturn] := by
  constructor
  · intro env sp ep times body c nl nv dt st4 h1 h2
    rw [compileStatement, h1]
    simp only [produce, produceList, freshLabel, List.map_cons, List.map_nil]
    rw [h2]
  · rfl

theorem repeat_lowering_witness :
    ∃ r, compileStatement envA
        (.N_StmtRepeat 2 7 (.N_ExprConstantNumber 3 4 3) (.N_StmtBlock 5 6 [])) ⟨[], 0, 0⟩
      = .ok r :=
  ⟨_, repeat_lowering.1 envA 2 7 (.N_ExprConstantNumber 3 4 3) (.N_StmtBlock 5 6 [])
    [] 0 0 [⟨3, 4, .IPushInteger 3⟩] _ rfl rfl⟩

/-- C5 (amended).  Foreach lowering: the compiler allocates the two loop
labels and then the three fresh synthetic variables in the order
`_list`, `_pos`, `_n` — with the variable counter at `nv` the list is
`_v nv`, the position `_v (nv+1)` and the length `_v (nv+2)` — and the
emitted code follows the foreach template: `SetVariable _list`, then
`SetVariable _n`, then `SetVariable _pos`, the loop, and after the end
label `UnsetVariable` of `_list`, `_n`, `_pos` and the user index, in
that order. -/
theorem foreach_lowering (env : Env) (sp ep : SrcPos) (index : String)
    (range : Expression) (body : Statement) (c : List Instr) (nl nv : Nat)
    (dr : List Instr) (st4 : CState)
    (h1 : compileExpression env range ⟨c, nl + 1 + 1, nv + 1 + 1 + 1⟩ =
      .ok ⟨c ++ dr, nl + 1 + 1, nv + 1 + 1 + 1⟩)
    (h2 : compileStatement env body
      ⟨c ++ dr ++
        [⟨range.startPos, range.endPos, .ITypeCheck (.TypeList .TypeAny)⟩,
         ⟨range.startPos, range.endPos, .ISetVariable (varName nv)⟩,
         ⟨range.startPos, range.endPos, .IPushVariable (varName nv)⟩,
         ⟨range.startPos, range.endPos, .IPrimitiveCall "_unsafeListLength" 1⟩,
         ⟨range.startPos, range.endPos, .ISetVariable (varName (nv + 1 + 1))⟩] ++
        [⟨sp, ep, .IPushInteger 0⟩,
         ⟨sp, ep, .ISetVariable (varName (nv + 1))⟩,
         ⟨sp, ep, .ILabel (labelName nl)⟩,
         ⟨sp, ep, .IPushVariable (varName (nv + 1))⟩,
         ⟨sp, ep, .IPushVariable (varName (nv + 1 + 1))⟩,
         ⟨sp, ep, .IPrimitiveCall "<" 2⟩,
         ⟨sp, ep, .IJumpIfFalse (labelName (nl + 1))⟩,
         ⟨sp, ep, .IPushVariable (varName nv)⟩,
         ⟨sp, ep, .IPushVariable (varName (nv + 1))⟩,
         ⟨sp, ep, .IPrimitiveCall "_unsafeListNth" 2⟩,
         ⟨sp, ep, .ISetVariable index⟩],
        nl + 1 + 1, nv + 1 + 1 + 1⟩ = .ok st4) :
    compileStatement env (.N_StmtForeach sp ep index range body) ⟨c, nl, nv⟩ =
      .ok ⟨st4.code ++
        [⟨sp, ep, .IPushVariable (varName (nv + 1))⟩,
         ⟨sp, ep, .IPushInteger 1⟩,
         ⟨sp, ep, .IPrimitiveCall "+" 2⟩,
         ⟨sp, ep, .ISetVariable (varName (nv + 1))⟩,
         ⟨sp, ep, .IJump (labelName nl)⟩,
         ⟨sp, ep, .ILabel (labelName (nl + 1))⟩,
         ⟨sp, ep, .IUnsetVariable (varName nv)⟩,
         ⟨sp, ep, .IUnsetVariable (varName (nv + 1 + 1))⟩,
         ⟨sp, ep, .IUnsetVariable (varName (nv + 1))⟩,
         ⟨sp, ep, .IUnsetVariable index⟩],
        st4.nextLabel, st4.nextVariable⟩ := by
  rw [compileStatement]
  simp only [produce, produceList, freshLabel, freshVariable, List.map_cons, List.map_nil]
  rw [h1]
  simp only []
  rw [h2]

theorem foreach_lowering_witness :
    ∃ r, compileStatement envA
        (.N_StmtForeach 2 7 "i" (.N_ExprVariable 3 4 "xs")
          (.N_StmtAssignVariable 5 6 "y" (.N_ExprVariable 5 6 "i"))) ⟨[], 0, 0⟩
      = .ok r :=
  ⟨_, foreach_lowering envA 2 7 "i" (.N_ExprVariable 3 4 "xs")
    (.N_StmtAssignVariable 5 6 "y" (.N_ExprVariable 5 6 "i"))
    [] 0 0 [⟨3, 4, .IPushVariable "xs"⟩] _ rfl rfl⟩

/-- C3.  Switch lowering: the subject is compiled once; then for each
branch in source order a fresh consecutive label is allocated and its
pattern check emitted (each check has net stack effect 0 — it never pops
the subject); then, unconditionally after all checks, the failure
sequence `PushString("errmsg:switch-does-not-match");
PrimitiveCall("_FAIL", 1)`; then the end label is allocated and, for each
branch in order, its label, the pattern bind, a `Pop` discarding the
subject, the branch body, the pattern unbind and a `Jump` to the end
label are emitted; finally the end label itself. -/
theorem switch_lowering :
    (∀ (env : Env) (sp ep : SrcPos) (subject : Expression)
        (branches : List SwitchBranch) (c : List Instr) (nl nv : Nat)
        (ds : List Instr) (st3 : CState),
      compileExpression env subject ⟨c, nl, nv⟩ = .ok ⟨c ++ ds, nl, nv⟩ →
      compileSwitchBranches env branches ((List.range' nl branches.length).map labelName)
          (labelName (nl + branches.length))
          ⟨c ++ ds ++ switchChecksCode env branches nl ++
            [⟨sp, ep, .IPushString (env.i18n "errmsg:switch-does-not-match")⟩,
             ⟨sp, ep, .IPrimitiveCall "_FAIL" 1⟩],
            nl + branches.length + 1, nv⟩ = .ok st3 →
      compileStatement env (.N_StmtSwitch sp ep subject branches) ⟨c, nl, nv⟩ =
        .ok ⟨st3.code ++ [⟨sp, ep, .ILabel (labelName (nl + branches.length))⟩],
          st3.nextLabel, st3.nextVariable⟩) ∧
    (∀ (env : Env) (bsp bep : SrcPos) (pattern : Pattern) (body : Statement)
        (bs : List SwitchBranch) (label : String) (labels : List String)
        (lEnd : String) (st : CState),
      compileSwitchBranches env (.N_SwitchBranch bsp bep pattern body :: bs)
          (label :: labels) lEnd st =
        match compileStatement env body
            ⟨st.code ++ [⟨bsp, bep, .ILabel label⟩] ++ patternBind env pattern ++
              [⟨bsp, bep, .IPop⟩], st.nextLabel, st.nextVariable⟩ with
        | .error e => .error e
        | .ok st4 => compileSwitchBranches env bs labels lEnd
            ⟨st4.code ++ patternUnbind pattern ++ [⟨bsp, bep, .IJump lEnd⟩],
              st4.nextLabel, st4.nextVariable⟩) ∧
    (∀ (env : Env) (pattern : Pattern) (targetLabel : String),
      netStackEffect env (patternCheck env pattern targetLabel) = 0) := by
  refine ⟨?_, ?_, ?_⟩
  · intro env sp ep subject branches c nl nv ds st3 h1 h2
    rw [compileStatement, h1]
    simp only []
    rw [compileSwitchChecks_eq]
    simp only [produceList, freshLabel, List.map_cons, List.map_nil]
    rw [h2]
    rfl
  · intro env bsp bep pattern body bs label labels lEnd st
    rfl
  · intro env pattern targetLabel
    cases pattern <;> rfl

theorem switch_lowering_witness :
    ∃ r, compileStatement envA
        (.N_StmtSwitch 1 8 (.N_ExprVariable 2 3 "x")
          [.N_SwitchBranch 4 7 (.N_PatternStructure 4 5 "C" []) (.N_StmtBlock 6 7 [])])
        ⟨[], 0, 0⟩ = .ok r :=
  ⟨_, switch_lowering.1 envA 1 8 (.N_ExprVariable 2 3 "x")
    [.N_SwitchBranch 4 7 (.N_PatternStructure 4 5 "C" []) (.N_StmtBlock 6 7 [])]
    [] 0 0 [⟨2, 3, .IPushVariable "x"⟩] _ rfl rfl⟩
